import Mathlib

/-!
# Endless Sky infrastructure: ArithmeticCast, Condition, WeightedList

A shallow embedding of `source/ArithmeticCast.h`, `source/Condition.h` and
`source/WeightedList.h`.  Machine integers are mathematical integers with the
wrap-around written out: `unsigned` is 32 bits wide, `std::size_t` is 64 bits
wide.
-/

namespace EndlessSky

/-! ## Arithmetic types (`<type_traits>`, `<limits>`) -/

/-- The kinds of arithmetic type that the overloads of `ArithmeticCast` distinguish. -/
inductive NumKind where
  | boolean
  | signedInt
  | unsignedInt
  | floating
  deriving DecidableEq, Repr

/-- An arithmetic type: its kind and its `sizeof` in bytes. -/
structure NumType where
  kind : NumKind
  bytes : Nat
  deriving DecidableEq, Repr

def bool_t : NumType := ⟨.boolean, 1⟩
def int8_t : NumType := ⟨.signedInt, 1⟩
def int16_t : NumType := ⟨.signedInt, 2⟩
def int32_t : NumType := ⟨.signedInt, 4⟩
def int64_t : NumType := ⟨.signedInt, 8⟩
def uint8_t : NumType := ⟨.unsignedInt, 1⟩
def uint16_t : NumType := ⟨.unsignedInt, 2⟩
def uint32_t : NumType := ⟨.unsignedInt, 4⟩
def uint64_t : NumType := ⟨.unsignedInt, 8⟩

/-- The trait `std::is_floating_point`. -/
def is_floating_point (T : NumType) : Bool :=
  match T.kind with
  | .floating => true
  | _ => false

/-- The trait `std::is_unsigned`; it holds for `bool` too. -/
def is_unsigned (T : NumType) : Bool :=
  match T.kind with
  | .unsignedInt => true
  | .boolean => true
  | _ => false

/-- The trait `IsBool` of ArithmeticCast.h. -/
def IsBool (T : NumType) : Bool :=
  match T.kind with
  | .boolean => true
  | _ => false

/-- The trait `std::is_arithmetic`: every `NumType` is arithmetic. -/
def is_arithmetic (_T : NumType) : Bool := true

/-- The signed and unsigned integer types of 8, 16, 32 and 64 bits. -/
def IsIntType (T : NumType) : Prop :=
  (T.kind = .signedInt ∨ T.kind = .unsignedInt) ∧
    (T.bytes = 1 ∨ T.bytes = 2 ∨ T.bytes = 4 ∨ T.bytes = 8)

instance (T : NumType) : Decidable (IsIntType T) := by
  unfold IsIntType; infer_instance

/-- The value `std::numeric_limits<T>::max()` of an integer or boolean type
(floating-point limits are not integers and are left out of this embedding). -/
def numeric_limits_max (T : NumType) : Int :=
  match T.kind with
  | .boolean => 1
  | .signedInt => 2 ^ (8 * T.bytes - 1) - 1
  | .unsignedInt => 2 ^ (8 * T.bytes) - 1
  | .floating => 0

/-- The value `std::numeric_limits<T>::min()` of an integer or boolean type. -/
def numeric_limits_min (T : NumType) : Int :=
  match T.kind with
  | .boolean => 0
  | .signedInt => -(2 ^ (8 * T.bytes - 1))
  | .unsignedInt => 0
  | .floating => 0

/-- The values that an object of type `T` can hold. -/
def InRange (T : NumType) (v : Int) : Prop :=
  numeric_limits_min T ≤ v ∧ v ≤ numeric_limits_max T

instance (T : NumType) (v : Int) : Decidable (InRange T v) := by
  unfold InRange; infer_instance

/-- The conversion `static_cast<To>(v)` of an integer value: modular for an
unsigned destination, two's complement for a signed one, truthiness for `bool`. -/
def static_cast (To : NumType) (v : Int) : Int :=
  match To.kind with
  | .boolean => if v = 0 then 0 else 1
  | .unsignedInt => v % 2 ^ (8 * To.bytes)
  | .signedInt => (v + 2 ^ (8 * To.bytes - 1)) % 2 ^ (8 * To.bytes) - 2 ^ (8 * To.bytes - 1)
  | .floating => v

/-! ## ArithmeticCast.h -/

/-- The primary template of `HigherMaxValue<A, B>` (lines 27-55). -/
def HigherMaxValue.primary (A B : NumType) : Bool :=
  if is_floating_point A then
    (!is_floating_point B || decide (A.bytes > B.bytes))
  else
    (!is_floating_point B &&
      (decide (A.bytes > B.bytes) ||
        (decide (A.bytes = B.bytes) && is_unsigned A && !is_unsigned B)))

/-- The trait `HigherMaxValue<A, B>` with its three specialisations for `bool`
(lines 57-73): `<A, bool>` is true, `<bool, B>` and `<bool, bool>` are false. -/
def HigherMaxValue (A B : NumType) : Bool :=
  match IsBool A, IsBool B with
  | true, true => false
  | true, false => false
  | false, true => true
  | false, false => HigherMaxValue.primary A B

/-- Body of "Cast to unsigned from larger unsigned" (lines 122-128). -/
def ArithmeticCast.unsignedFromLargerUnsigned (To From : NumType) (v : Int) : Int :=
  if v ≤ static_cast From (numeric_limits_max To) then static_cast To v
  else numeric_limits_max To

/-- Body of "Cast to unsigned from an unsigned of same size or less" (lines 139-142). -/
def ArithmeticCast.unsignedFromSmallerUnsigned (To _From : NumType) (v : Int) : Int :=
  static_cast To v

/-- Body of "Cast to unsigned from signed of same size or less" (lines 154-160). -/
def ArithmeticCast.unsignedFromSmallerSigned (To _From : NumType) (v : Int) : Int :=
  if v ≥ 0 then static_cast To v else 0

/-- Body of "Cast to unsigned from a larger signed integer" (lines 173-182). -/
def ArithmeticCast.unsignedFromLargerSigned (To From : NumType) (v : Int) : Int :=
  let max := static_cast From (numeric_limits_max To)
  if v < 0 then 0
  else if v > max then numeric_limits_max To
  else static_cast To v

/-- Body of "Cast to signed integer from larger signed integer" (lines 219-229). -/
def ArithmeticCast.signedFromLargerSigned (To From : NumType) (v : Int) : Int :=
  let max := static_cast From (numeric_limits_max To)
  let min := static_cast From (numeric_limits_min To)
  if v > max then numeric_limits_max To
  else if v < min then numeric_limits_min To
  else static_cast To v

/-- Body of "Cast to signed integer from an unsigned integer of same size or
larger" (lines 243-250). -/
def ArithmeticCast.signedFromLargerUnsigned (To From : NumType) (v : Int) : Int :=
  let max := static_cast From (numeric_limits_max To)
  if v > max then numeric_limits_max To
  else static_cast To v

/-- Body of "Cast to signed integer from smaller integer" (lines 263-266). -/
def ArithmeticCast.signedFromSmaller (To _From : NumType) (v : Int) : Int :=
  static_cast To v

/-- Body of "Cast to bool from integer" (lines 289-292). -/
def ArithmeticCast.boolFromInteger (To _From : NumType) (v : Int) : Int :=
  static_cast To v

/-- One overload of `ArithmeticCast<To>(From)`: whether its `enable_if` conditions
hold for the pair of types, and its body. -/
structure Overload where
  enabled : Bool
  body : Int → Int

/-- The overloads of `ArithmeticCast<To>(From)` that act on integer and boolean
values, in the order of the header, each with its `enable_if` conditions.  The four
overloads with a floating-point source or destination act on floating-point values
and are not part of this integer embedding. -/
def ArithmeticCast.overloads (To From : NumType) : List Overload :=
  [ { enabled := !IsBool To && is_unsigned To && !is_floating_point To
        && is_unsigned From && !is_floating_point From && HigherMaxValue From To,
      body := ArithmeticCast.unsignedFromLargerUnsigned To From },
    { enabled := !IsBool To && is_unsigned To && !is_floating_point To
        && is_unsigned From && !is_floating_point From && !HigherMaxValue From To,
      body := ArithmeticCast.unsignedFromSmallerUnsigned To From },
    { enabled := !IsBool To && is_unsigned To && !is_floating_point To
        && !is_unsigned From && !is_floating_point From && !HigherMaxValue From To,
      body := ArithmeticCast.unsignedFromSmallerSigned To From },
    { enabled := !IsBool To && is_unsigned To && !is_floating_point To
        && !is_floating_point From && !is_unsigned From && is_arithmetic From
        && HigherMaxValue From To,
      body := ArithmeticCast.unsignedFromLargerSigned To From },
    { enabled := !IsBool To && !is_unsigned To && !is_floating_point To && is_arithmetic To
        && !is_floating_point From && !is_unsigned From && is_arithmetic From
        && HigherMaxValue From To,
      body := ArithmeticCast.signedFromLargerSigned To From },
    { enabled := !IsBool To && !is_unsigned To && !is_floating_point To && is_arithmetic To
        && !is_floating_point From && is_unsigned From && is_arithmetic From
        && HigherMaxValue From To,
      body := ArithmeticCast.signedFromLargerUnsigned To From },
    { enabled := !IsBool To && !is_unsigned To && !is_floating_point To && is_arithmetic To
        && !is_floating_point From && is_arithmetic From && !HigherMaxValue From To,
      body := ArithmeticCast.signedFromSmaller To From },
    { enabled := IsBool To && !is_floating_point From && is_arithmetic From,
      body := ArithmeticCast.boolFromInteger To From } ]

/-- The call `ArithmeticCast<To>(v)` for `v` of type `From`: overload resolution
selects the overload whose conditions hold.  The result is `none` when the call does
not resolve to one integer overload: none is viable (a floating-point source or
destination) or more than one is (an ambiguous call). -/
def ArithmeticCast (To From : NumType) (v : Int) : Option Int :=
  match (ArithmeticCast.overloads To From).filter (fun overload => overload.enabled) with
  | [overload] => some (overload.body v)
  | _ => none

/-- Integer promotion: an operand narrower than `int` is converted to `int`
before arithmetic is done on it. -/
def promote (T : NumType) : NumType :=
  if T.bytes < 4 then int32_t else T

/-- The usual arithmetic conversions: the type in which a binary operator computes on
operands of the types `A` and `B`.  After promotion, operands of one signedness take
the larger type; otherwise the unsigned type wins unless the signed type is larger. -/
def commonType (A B : NumType) : NumType :=
  let a := promote A
  let b := promote B
  if is_floating_point a then a
  else if is_floating_point b then b
  else if is_unsigned a = is_unsigned b then (if b.bytes ≤ a.bytes then a else b)
  else if is_unsigned a then (if b.bytes ≤ a.bytes then a else b)
  else (if a.bytes ≤ b.bytes then b else a)

/-! ## Faults -/

/-- The ways in which a modelled function can fail to return a value. -/
inductive Fault where
  /-- A `std::runtime_error` was thrown, with this message. -/
  | runtime_error (what : String)
  /-- A vector was read or written outside its bounds (undefined behaviour). -/
  | out_of_bounds
  /-- A loop was still running when the iteration budget ran out. -/
  | out_of_fuel
  /-- A floating-point value was converted to an integer type that cannot represent
  its truncation (undefined behaviour). -/
  | not_representable
  deriving DecidableEq, Repr

/-! ## Condition.h -/

/-- Modelled from the spec: `ConditionsStore::ConditionElement` is not under
src/.  A store slot holds a stored scalar and optionally a provider, whose
`getFunction(name)` computes the value on demand. -/
structure ConditionElement where
  value : Int
  provider : Option (String → Int)

/-- Modelled from the spec: `ConditionsStore` is not under src/.  `GetEntry`
returns the slot for a name (null when there is none), and `ValueType` is the
arithmetic type of the values it stores. -/
structure ConditionsStore where
  ValueType : NumType
  GetEntry : String → Option ConditionElement

/-- The data members of `Condition<V>` (lines 107-112): `store` is the shared
pointer (null when `none`), `element` the weak pointer (empty when `none`). -/
structure Condition (V : NumType) where
  value : Int
  name : String
  store : Option ConditionsStore
  element : Option ConditionElement

namespace Condition

variable {V : NumType}

/-- The default constructor `Condition()` (line 55): `value()` and `name()` are
value-initialised, `store` and `element` are left null. -/
def default (V : NumType) : Condition V :=
  { value := 0, name := "", store := none, element := none }

/-- The constructor `Condition(const V &value)` (line 56). -/
def ofValue (V : NumType) (value : Int) : Condition V :=
  { value := value, name := "", store := none, element := none }

/-- The constructor `Condition(const V &value, const NameType &name)` (line 57). -/
def ofValueName (V : NumType) (value : Int) (name : String) : Condition V :=
  { value := value, name := name, store := none, element := none }

/-- The accessor `Name()` (line 80). -/
def Name (c : Condition V) : String := c.name

/-- The accessor `HasConditions()` (line 89): `return store;`, the shared
pointer converted to `bool`. -/
def HasConditions (c : Condition V) : Bool := c.store.isSome

/-- The helper `GetEntryFromStore` (lines 240-253): the cached element if the weak
pointer can still be locked, else the entry that the store has for the name.  (The
source names the weak pointer `entry` there and `element` in the class.) -/
def GetEntryFromStore (c : Condition V) (store : ConditionsStore) : Option ConditionElement :=
  match c.element with
  | some entry => some entry
  | none => store.GetEntry c.name

/-- The helper `GetFromStore` (lines 217-226).  The result is `none` only when
`ArithmeticCast` has no integer overload for the pair of types. -/
def GetFromStore (c : Condition V) (store : ConditionsStore) : Option Int :=
  match c.GetEntryFromStore store with
  | none => some 0
  | some it =>
    match it.provider with
    | none => ArithmeticCast V store.ValueType it.value
    | some getFunction => ArithmeticCast V store.ValueType (getFunction c.name)

/-- The accessor `Value()` (line 79): `store ? GetFromStore() : value`. -/
def Value (c : Condition V) : Option Int :=
  match c.store with
  | some store => c.GetFromStore store
  | none => some c.value

/-- The converting constructor `Condition(const Condition<V2> &other)` (lines 118-124):
`value(static_cast<ValueType>(other.Value()))`, `name(other.Name())`; `store` and
`element` are not initialised from `other` and stay null.  The result is `none` only
when `other.Value()` is. -/
def ofCondition (V : NumType) {V2 : NumType} (other : Condition V2) : Option (Condition V) :=
  match other.Value with
  | none => none
  | some v => some { value := static_cast V v, name := other.Name, store := none, element := none }

/-- The converting assignment `operator=(const Condition<V2> &other)` (lines 129-136):
`value` and `name` are assigned, `store` and `element` keep what they held. -/
def assign {V2 : NumType} (c : Condition V) (other : Condition V2) : Option (Condition V) :=
  match other.Value with
  | none => none
  | some v => some { c with value := static_cast V v, name := other.Name }

/-- The assignment `operator=(const T &t)` of an arithmetic value (line 66). -/
def assignValue (c : Condition V) (t : Int) : Condition V :=
  { c with value := static_cast V t }

/-- The member `UpdateConditions(getter)` (lines 140-154): the Condition afterwards and
the value returned.  `HasGet` is `getter.HasGet`. -/
def UpdateConditions (c : Condition V) (HasGet : String → Bool × Int) : Condition V × Int :=
  if c.HasConditions then
    let got := HasGet c.name
    if got.1 then
      ({ c with value := static_cast V got.2 }, static_cast V got.2)
    else
      (c, c.value)
  else
    (c, c.value)

/-- The member `UpdateConditions(getter, validator)` (lines 158-177): the Condition
afterwards and the value returned.  `ValueType()` is 0. -/
def UpdateConditions.validated (c : Condition V) (HasGet : String → Bool × Int)
    (validator : Int → Bool) : Condition V × Int :=
  let fallback : Condition V × Int :=
    if !validator c.value then ({ c with value := 0 }, 0) else (c, c.value)
  if c.HasConditions then
    let got := HasGet c.name
    if got.1 && validator got.2 then
      ({ c with value := static_cast V got.2 }, static_cast V got.2)
    else
      fallback
  else
    fallback

/-- The member `SameOrigin(o)` (lines 180-189).  The result is `none` only when
`o.Value()` is. -/
def SameOrigin (c o : Condition V) : Option Bool :=
  if c.HasConditions then
    some (decide (c.name = o.Name))
  else if o.HasConditions then
    some false
  else
    match o.Value with
    | none => none
    | some v => some (decide (c.value = v))

/-- The conversion `operator ValueType()` (line 97): `return value;`. -/
def toValue (c : Condition V) : Int := c.value

end Condition

/-- The Conditions that the public interface of the class can produce: the results of
the three constructors (lines 55-57), of the converting constructor and assignment
(lines 118-136), of the assignment of a value (line 66) and of the two
`UpdateConditions` (lines 140-177), applied to Conditions that were produced in the same
way.  `store` and `element` are private (lines 107-112). -/
inductive Condition.Constructible : {V : NumType} → Condition V → Prop
  | default (V : NumType) : Condition.Constructible (Condition.default V)
  | ofValue (V : NumType) (value : Int) : Condition.Constructible (Condition.ofValue V value)
  | ofValueName (V : NumType) (value : Int) (name : String) :
      Condition.Constructible (Condition.ofValueName V value name)
  | ofCondition (V : NumType) {V2 : NumType} (other : Condition V2) (c : Condition V) :
      Condition.Constructible other → Condition.ofCondition V other = some c →
      Condition.Constructible c
  | assign {V V2 : NumType} (c : Condition V) (other : Condition V2) (r : Condition V) :
      Condition.Constructible c → Condition.Constructible other →
      c.assign other = some r → Condition.Constructible r
  | assignValue {V : NumType} (c : Condition V) (t : Int) :
      Condition.Constructible c → Condition.Constructible (c.assignValue t)
  | UpdateConditions {V : NumType} (c : Condition V) (HasGet : String → Bool × Int) :
      Condition.Constructible c → Condition.Constructible (c.UpdateConditions HasGet).1
  | validated {V : NumType} (c : Condition V) (HasGet : String → Bool × Int)
      (validator : Int → Bool) :
      Condition.Constructible c →
      Condition.Constructible (Condition.UpdateConditions.validated c HasGet validator).1

/-- Modelled from the spec: the weight type that `UpdateConditions` expects,
with `WasLValue()` and `Key()`, is not under src/.  A weight is an `unsigned`
value (so `value < 2 ^ 32`, and its conversions to `unsigned`, `std::size_t` and
`bool` are `value`, `value` and `value != 0`) that may be bound to a key of the
store; a weight of the default `WeightType = unsigned` has no key. -/
structure Weight where
  value : Nat
  key : Option String
  deriving DecidableEq, Repr

/-- A value-initialised weight, `WeightType()`. -/
def Weight.zero : Weight := { value := 0, key := none }

/-- A literal weight of the default weight type `unsigned`. -/
def Weight.lit (value : Nat) : Weight := { value := value, key := none }

/-- Modelled from the spec: `WasLValue()`, true iff the weight is bound to a key. -/
def Weight.WasLValue (w : Weight) : Bool := w.key.isSome

/-- Modelled from the spec: `Key()`, the key a bound weight is resolved from. -/
def Weight.Key (w : Weight) : String := w.key.getD ""

/-- Assignment of an `unsigned` value to a weight: the value is replaced, the
binding is kept. -/
def Weight.assign (w : Weight) (value : Nat) : Weight := { w with value := value }

/-- The data members of `WeightedList<Type, WeightType>` (lines 98-101). -/
structure WeightedList (T : Type) where
  choices : List T
  weights : List Weight
  total : Nat

/-- The values of a list of weights. -/
def weightValues (weights : List Weight) : List Nat := weights.map Weight.value

namespace WeightedList

variable {T : Type}

/-- A default-constructed `WeightedList`: both vectors empty, `total = 0`. -/
def empty : WeightedList T := { choices := [], weights := [], total := 0 }

/-- The accessor `size()` (line 82). -/
def size (l : WeightedList T) : Nat := l.choices.length

/-- The accessor `TotalWeight()` (line 47). -/
def TotalWeight (l : WeightedList T) : Nat := l.total

/-- The class invariant: `choices` and `weights` have the same length and the
cached total is the sum of the weights. -/
def Invariant (l : WeightedList T) : Prop :=
  l.choices.length = l.weights.length ∧ l.total = (weightValues l.weights).sum

/-- What the machine types impose on a list: it can be indexed by `unsigned`, as
every loop of the class does, and each weight is an `unsigned` value. -/
def Representable (l : WeightedList T) : Prop :=
  l.choices.length < 2 ^ 32 ∧ ∀ w ∈ l.weights, w.value < 2 ^ 32

instance (l : WeightedList T) : Decidable l.Invariant := by
  unfold Invariant; infer_instance

instance (l : WeightedList T) : Decidable l.Representable := by
  unfold Representable; infer_instance

/-- The predicate `IsAValidWeight(t)` (line 65), `t >= 1 && (t + 1 > t)`, for a value
`t` of the integer type `W`.  `t + 1` is computed in the promoted type.  For an unsigned
type the sum wraps around, so that `t + 1 > t` is false at the maximum.  For a signed
type the sum is the mathematical one: it leaves the type only when `t` is the maximum of
`int` or `int64_t`, where C++ leaves the overflow undefined and a compiler, which may
assume that it does not occur, evaluates `t + 1 > t` as true. -/
def IsAValidWeight (W : NumType) (t : Int) : Bool :=
  decide (t ≥ 1) &&
    decide ((if is_unsigned (promote W) then static_cast (promote W) (t + 1) else t + 1) > t)

/-- The sum that `RecalculateWeight` (lines 273-278) accumulates in a `std::size_t`. -/
def RecalculateWeight.sum (weights : List Weight) : Nat :=
  weights.foldl (fun total weight => (total + weight.value) % 2 ^ 64) 0

/-- The member `RecalculateWeight()` (lines 273-278). -/
def RecalculateWeight (l : WeightedList T) : WeightedList T :=
  { l with total := RecalculateWeight.sum l.weights }

/-- The member `clear()` (line 80). -/
def clear (_l : WeightedList T) : WeightedList T :=
  { choices := [], weights := [], total := 0 }

/-- The loop of `Get()` (lines 155-158).  `choice` and `index` are `unsigned`;
`choice -= weights[index]` runs only when `choice >= weights[index]`, so it does not
wrap.  Reading `weights[index]` past the end is a fault. -/
def Get.loop (weights : List Weight) : Nat → Nat → Nat → Except Fault Nat
  | 0, _, _ => .error .out_of_fuel
  | fuel + 1, choice, index =>
    match weights[index]? with
    | none => .error .out_of_bounds
    | some w =>
      if w.value != 0 && decide (choice ≥ w.value) then
        Get.loop weights fuel (choice - w.value) ((index + 1) % 2 ^ 32)
      else
        .ok index

/-- The index that `Get()` (lines 145-161) selects.  Modelled from the spec:
`Random::Int(total)` (Random.h is not under src/) is a uniformly random integer in
`[0, total)`; it is the argument `draw`, stored in the `unsigned` variable `choice`. -/
def Get.index (l : WeightedList T) (draw fuel : Nat) : Except Fault Nat :=
  if l.choices.isEmpty then
    .error (.runtime_error "Attempted to call Get on an empty weighted list.")
  else if l.total = 0 then
    .ok 0
  else
    Get.loop l.weights fuel (draw % 2 ^ 32) 0

/-- The member `Get()` (lines 145-161): the element at the selected index. -/
def Get (l : WeightedList T) (draw fuel : Nat) : Except Fault T :=
  match Get.index l draw fuel with
  | .error e => .error e
  | .ok index =>
    match l.choices[index]? with
    | none => .error .out_of_bounds
    | some choice => .ok choice

/-- The member `emplace_back(weight, args...)` (lines 183-194); `item` is the element
constructed from `args`. -/
def emplace_back (l : WeightedList T) (weight : Weight) (item : T) : WeightedList T :=
  let stored := if IsAValidWeight uint32_t weight.value then weight else Weight.zero
  { choices := l.choices ++ [item],
    weights := l.weights ++ [stored],
    total := (l.total + stored.value) % 2 ^ 64 }

/-- The member `eraseAt(position)` (lines 247-255); `position` is the distance of the
iterator from `begin()`, and `index` is that distance stored in an `unsigned`. -/
def eraseAt (l : WeightedList T) (position : Nat) : Except Fault (WeightedList T) :=
  let index := position % 2 ^ 32
  match l.weights[index]? with
  | none => .error .out_of_bounds
  | some w =>
    if position < l.choices.length then
      .ok { choices := l.choices.eraseIdx position,
            weights := l.weights.eraseIdx index,
            total := (l.total + 2 ^ 64 - w.value) % 2 ^ 64 }
    else
      .error .out_of_bounds

/-- The member `erase(first, last)` (lines 259-268); the iterators are given by their
distances from `begin()`. -/
def erase (l : WeightedList T) (first last : Nat) : Except Fault (WeightedList T) :=
  if first ≤ last ∧ last ≤ l.choices.length ∧ last ≤ l.weights.length then
    let weights := l.weights.take first ++ l.weights.drop last
    .ok { choices := l.choices.take first ++ l.choices.drop last,
          weights := weights,
          total := RecalculateWeight.sum weights }
  else
    .error .out_of_bounds

/-- The loop of `UpdateConditions` (lines 204-216) from `index` on.  `HasGet` is the
getter, whose values have the integer type `G`. -/
def UpdateConditions.loop (G : NumType) (HasGet : String → Bool × Int) (size : Nat) :
    Nat → List Weight → Nat → Except Fault (List Weight)
  | 0, _, _ => .error .out_of_fuel
  | fuel + 1, weights, index =>
    if index < size then
      match weights[index]? with
      | none => .error .out_of_bounds
      | some w =>
        if !w.WasLValue then
          UpdateConditions.loop G HasGet size fuel weights ((index + 1) % 2 ^ 32)
        else
          let result := HasGet w.Key
          if !result.1 then
            UpdateConditions.loop G HasGet size fuel weights ((index + 1) % 2 ^ 32)
          else if IsAValidWeight G result.2 then
            UpdateConditions.loop G HasGet size fuel
              (weights.set index (w.assign (static_cast uint32_t result.2).toNat))
              ((index + 1) % 2 ^ 32)
          else
            UpdateConditions.loop G HasGet size fuel (weights.set index (w.assign 0))
              ((index + 1) % 2 ^ 32)
    else
      .ok weights

/-- What one pass of the loop of `UpdateConditions` (lines 206-215) does to a weight. -/
def UpdateConditions.updated (G : NumType) (HasGet : String → Bool × Int) (w : Weight) :
    Weight :=
  if w.WasLValue && (HasGet w.Key).1 then
    if IsAValidWeight G (HasGet w.Key).2 then
      w.assign (static_cast uint32_t (HasGet w.Key).2).toNat
    else
      w.assign 0
  else
    w

/-- The member `UpdateConditions(getter)` (lines 200-218). -/
def UpdateConditions (l : WeightedList T) (G : NumType) (HasGet : String → Bool × Int)
    (fuel : Nat) : Except Fault (WeightedList T) :=
  match UpdateConditions.loop G HasGet l.choices.length fuel l.weights 0 with
  | .error e => .error e
  | .ok weights => .ok (RecalculateWeight { l with weights := weights })

/-- The loop of `Average` (lines 176-177) for a callable with the integer result type
`R`: `sum += fn(choices[index]) * static_cast<unsigned>(weights[index])`.  The product is
computed in the common type of `R` and `unsigned`, the sum in the common type of `R`
and of the product, and stored back into `sum`, of type `R`. -/
def Average.loop (R : NumType) (fn : T → Int) (choices : List T) (weights : List Weight) :
    Nat → Int → Nat → Except Fault Int
  | 0, _, _ => .error .out_of_fuel
  | fuel + 1, sum, index =>
    if index < choices.length then
      match choices[index]?, weights[index]? with
      | some choice, some weight =>
        let P := commonType R uint32_t
        let product := static_cast P (static_cast P (fn choice) * static_cast P weight.value)
        let S := commonType R P
        Average.loop R fn choices weights fuel
          (static_cast R (static_cast S (static_cast S sum + static_cast S product)))
          ((index + 1) % 2 ^ 32)
      | _, _ => .error .out_of_bounds
    else
      .ok sum

/-- The member `Average(fn)` (lines 165-179) for a callable with the integer result type
`R`: `sum / tw` divides in the common type of `R` and `std::size_t`, and the quotient is
converted to the return type `R`. -/
def Average (l : WeightedList T) (R : NumType) (fn : T → Int) (fuel : Nat) :
    Except Fault Int :=
  let tw := l.TotalWeight
  if tw = 0 then
    .ok 0
  else
    match Average.loop R fn l.choices l.weights fuel 0 0 with
    | .error e => .error e
    | .ok sum =>
      let Q := commonType R uint64_t
      .ok (static_cast R (static_cast Q (Int.tdiv (static_cast Q sum) (static_cast Q tw))))

/-- The loop of `Any(c)` (lines 227-229) from `index` on: it runs while
`index < choices.size() && weights[index]`, a weight being true when it is not 0. -/
def Any.loop (c : Weight → T → Bool) (choices : List T) (weights : List Weight) :
    Nat → Nat → Except Fault Bool
  | 0, _ => .error .out_of_fuel
  | fuel + 1, index =>
    if index < choices.length then
      match weights[index]?, choices[index]? with
      | some weight, some choice =>
        if weight.value != 0 then
          if c weight choice then .ok true
          else Any.loop c choices weights fuel ((index + 1) % 2 ^ 32)
        else
          .ok false
      | _, _ => .error .out_of_bounds
    else
      .ok false

/-- The member `Any(c)` (lines 223-231). -/
def Any (l : WeightedList T) (c : Weight → T → Bool) (fuel : Nat) : Except Fault Bool :=
  Any.loop c l.choices l.weights fuel 0

/-- The loop of `All(c)` (lines 239-241) from `index` on. -/
def All.loop (c : Weight → T → Bool) (choices : List T) (weights : List Weight) :
    Nat → Nat → Except Fault Bool
  | 0, _ => .error .out_of_fuel
  | fuel + 1, index =>
    if index < choices.length then
      match weights[index]?, choices[index]? with
      | some weight, some choice =>
        if !c weight choice then .ok false
        else All.loop c choices weights fuel ((index + 1) % 2 ^ 32)
      | _, _ => .error .out_of_bounds
    else
      .ok true

/-- The member `All(c)` (lines 235-243). -/
def All (l : WeightedList T) (c : Weight → T → Bool) (fuel : Nat) : Except Fault Bool :=
  All.loop c l.choices l.weights fuel 0

end WeightedList

/-- The inner `while` loop of `erase_if` (lines 122-126): `available` is `unsigned`,
`erased` is a `std::size_t`. -/
def erase_if.scan {T : Type} (pred : T → Bool) (choices : List T) (index : Nat) :
    Nat → Nat → Nat → Except Fault (Nat × Nat)
  | 0, _, _ => .error .out_of_fuel
  | fuel + 1, available, erased =>
    if index ≠ available then
      match choices[available]? with
      | none => .error .out_of_bounds
      | some c =>
        if pred c then
          erase_if.scan pred choices index fuel ((available + 2 ^ 32 - 1) % 2 ^ 32)
            ((erased + 1) % 2 ^ 64)
        else
          .ok (available, erased)
    else
      .ok (available, erased)

/-- The `for` loop of `erase_if` (lines 119-134), from `index` on.  The bound
`choices.size() - erased` is computed in `std::size_t`. -/
def erase_if.loop {T : Type} (pred : T → Bool) :
    Nat → List T → List Weight → Nat → Nat → Nat → Except Fault (List T × List Weight × Nat)
  | 0, _, _, _, _, _ => .error .out_of_fuel
  | fuel + 1, choices, weights, index, available, erased =>
    if index < (choices.length + 2 ^ 64 - erased) % 2 ^ 64 then
      match choices[index]? with
      | none => .error .out_of_bounds
      | some c =>
        if pred c then
          match erase_if.scan pred choices index fuel available erased with
          | .error e => .error e
          | .ok (available, erased) =>
            if index ≠ available then
              match choices[available]?, weights[available]? with
              | some movedChoice, some movedWeight =>
                if index < weights.length then
                  erase_if.loop pred fuel (choices.set index movedChoice)
                    (weights.set index movedWeight) ((index + 1) % 2 ^ 32)
                    ((available + 2 ^ 32 - 1) % 2 ^ 32) ((erased + 1) % 2 ^ 64)
                else
                  .error .out_of_bounds
              | _, _ => .error .out_of_bounds
            else
              erase_if.loop pred fuel choices weights ((index + 1) % 2 ^ 32) available
                ((erased + 1) % 2 ^ 64)
        else
          erase_if.loop pred fuel choices weights ((index + 1) % 2 ^ 32) available erased
    else
      .ok (choices, weights, erased)

/-- The function `erase_if(list, pred)` (lines 114-141): the list afterwards and the
number returned.  Each loop may run for at most `fuel` iterations. -/
def erase_if {T : Type} (list : WeightedList T) (pred : T → Bool) (fuel : Nat) :
    Except Fault (WeightedList T × Nat) :=
  let available := (list.choices.length + 2 ^ 64 - 1) % 2 ^ 64 % 2 ^ 32
  match erase_if.loop pred fuel list.choices list.weights 0 available 0 with
  | .error e => .error e
  | .ok (choices, weights, erased) =>
    if erased ≤ choices.length ∧ erased ≤ weights.length then
      .ok (WeightedList.RecalculateWeight
            { choices := choices.take (choices.length - erased),
              weights := weights.take (weights.length - erased),
              total := list.total },
          erased)
    else
      .error .out_of_bounds

/-- The function `erase(list, item)` (lines 106-110): `erase_if` with the predicate
`item == t`. -/
def erase {T : Type} [DecidableEq T] (list : WeightedList T) (item : T) (fuel : Nat) :
    Except Fault (WeightedList T × Nat) :=
  erase_if list (fun t => decide (item = t)) fuel

/-! ## DataNode.h -/

/-- The data members of `DataNode` that the functions below read (lines 89-96): the
tokens of the line and its line number.  The children and the parent pointer serve
iteration and trace printing only. -/
structure DataNode where
  tokens : List String
  lineNumber : Nat
  deriving DecidableEq, Repr

/-- Modelled from the spec: the static members `IsNumber(token)` and `Value(token)` are
declared in DataNode.h and defined in DataNode.cpp, which is not under src/.  The
grammar of numbers belongs to the parser; `Value` gives the `double` that a token
denotes, by its exact rational value. -/
structure NumberFormat where
  IsNumber : String → Bool
  Value : String → ℚ

/-- What a call of `ExpectNumber` leaves behind: the value returned, the output
parameter `result`, and the message handed to `PrintTrace`, if any. -/
structure ExpectNumberOutcome (R : Type) where
  returned : Bool
  result : R
  trace : Option String
  deriving DecidableEq, Repr

/-- The conversion `static_cast<T>(x)` of a `double` `x`, given by its rational value, to
an integer or boolean type `T`: the value is truncated toward zero, and the behaviour is
undefined when the destination cannot represent the truncated value; for `bool` the
result is whether `x` is nonzero. -/
def static_cast_of_double (T : NumType) (x : ℚ) : Except Fault Int :=
  match T.kind with
  | .boolean => .ok (if x = 0 then 0 else 1)
  | _ =>
    if InRange T (Int.tdiv x.num x.den) then .ok (Int.tdiv x.num x.den)
    else .error .not_representable

namespace DataNode

/-- The member `Size()` (line 44). -/
def Size (node : DataNode) : Int := static_cast int32_t node.tokens.length

/-- The token at an `int` index, if the index names one. -/
def tokenAt (node : DataNode) (index : Int) : Option String :=
  if 0 ≤ index then node.tokens[index.toNat]? else none

/-- Modelled from the spec: the member `IsNumber(int index)` (line 55, defined in
DataNode.cpp): whether the token at the index is a number; there is no such token at an
index out of range. -/
def IsNumber (format : NumberFormat) (node : DataNode) (index : Int) : Bool :=
  match node.tokenAt index with
  | some token => format.IsNumber token
  | none => false

/-- Modelled from the spec: the member `Value(int index)` (line 51, defined in
DataNode.cpp): the number the token at the index denotes, and 0 if the index is out of
range or the token is not a number. -/
def Value (format : NumberFormat) (node : DataNode) (index : Int) : ℚ :=
  match node.tokenAt index with
  | some token => if format.IsNumber token then format.Value token else 0
  | none => 0

/-- The member template `ExpectNumber(index, context, result)` (lines 105-119).
`convert` is `static_cast<T>` from `double`; `index + 1` is computed in `int`. -/
def ExpectNumber {R : Type} (format : NumberFormat) (convert : ℚ → Except Fault R)
    (node : DataNode) (index : Int) (context : String) (result : R) :
    Except Fault (ExpectNumberOutcome R) :=
  if static_cast int32_t node.tokens.length < static_cast int32_t (index + 1) then
    .ok { returned := false, result := result, trace := some ("Missing " ++ context) }
  else if !node.IsNumber format index then
    .ok { returned := false, result := result,
          trace := some ("Expected number for " ++ context) }
  else
    match convert (node.Value format index) with
    | .error e => .error e
    | .ok converted => .ok { returned := true, result := converted, trace := none }

/-- The loop of `CheckForKeywords` (lines 126-132) over the keywords that are left.
Reading `tokens[tokenIndex]` outside the vector is a fault; `tokenIndex++` is computed
in `int`. -/
def CheckForKeywords.loop (tokens : List String) (size : Int) :
    List String → Int → Except Fault Bool
  | [], _ => .ok true
  | keyword :: rest, tokenIndex =>
    if tokenIndex < 0 ∨ tokenIndex ≥ size then
      .ok false
    else
      match tokens[tokenIndex.toNat]? with
      | none => .error .out_of_bounds
      | some token =>
        if keyword ≠ token then .ok false
        else CheckForKeywords.loop tokens size rest (static_cast int32_t (tokenIndex + 1))

/-- The member template `CheckForKeywords(index, list)` (lines 122-134). -/
def CheckForKeywords (node : DataNode) (index : Int) (list : List String) :
    Except Fault Bool :=
  CheckForKeywords.loop node.tokens (static_cast int32_t node.tokens.length) list index

end DataNode

/-! ## ArithmeticCast.h, floating-point sources -/

/-- The type `float`. -/
def float_t : NumType := ⟨.floating, 4⟩

/-- The type `double`. -/
def double_t : NumType := ⟨.floating, 8⟩

/-- A value of a floating-point type: a finite value, given exactly, an infinity, or a
NaN. -/
inductive FloatValue where
  | finite (value : ℚ)
  | infinity (negative : Bool)
  | nan
  deriving DecidableEq

namespace FloatValue

/-- The comparison `a < b` of two floating-point values; it is false when either is a
NaN. -/
def lt : FloatValue → FloatValue → Bool
  | .finite x, .finite y => decide (x < y)
  | .finite _, .infinity negative => !negative
  | .infinity negative, .finite _ => negative
  | .infinity a, .infinity b => a && !b
  | _, _ => false

/-- The comparison `a > b`. -/
def gt (a b : FloatValue) : Bool := lt b a

/-- The comparison `a == b`; a NaN is not equal to anything, itself included. -/
def eq : FloatValue → FloatValue → Bool
  | .finite x, .finite y => decide (x = y)
  | .infinity a, .infinity b => a == b
  | _, _ => false

/-- The negation `-a`. -/
def neg : FloatValue → FloatValue
  | .finite x => .finite (-x)
  | .infinity negative => .infinity (!negative)
  | .nan => .nan

end FloatValue

/-- The value `std::numeric_limits<T>::digits` of a floating-point type: 24 binary
digits for `float`, 53 for `double`. -/
def numeric_limits_digits (T : NumType) : Nat :=
  if T.bytes ≤ 4 then 24 else 53

/-- The number of binary digits of `n`, found in at most `fuel` halvings. -/
def binaryDigits : Nat → Nat → Nat
  | 0, _ => 0
  | fuel + 1, n => if n = 0 then 0 else binaryDigits fuel (n / 2) + 1

/-- The natural number with at most `digits` significant binary digits that is nearest
to `n`, a tie going to the even significand. -/
def roundToDigits (digits n : Nat) : Nat :=
  let shift := binaryDigits n n - digits
  let quotient := n / 2 ^ shift
  let rest := n % 2 ^ shift
  if 2 * rest > 2 ^ shift ∨ (2 * rest = 2 ^ shift ∧ quotient % 2 = 1) then
    (quotient + 1) * 2 ^ shift
  else
    quotient * 2 ^ shift

/-- The conversion `static_cast<From>(v)` of an integer value `v` to the floating-point
type `From`: the nearest value of the type (the default rounding of IEEE arithmetic; an
integer of at most 64 bits is within the range of `float` and `double`). -/
def static_cast_to_floating (From : NumType) (v : Int) : FloatValue :=
  if v < 0 then .finite (-((roundToDigits (numeric_limits_digits From) v.natAbs : Int) : ℚ))
  else .finite ((roundToDigits (numeric_limits_digits From) v.natAbs : Int) : ℚ)

/-- The conversion of a floating-point value to the integer type `To` that `return from;`
performs: truncation toward zero, undefined when `To` cannot hold the truncated value,
as for an infinity or a NaN. -/
def static_cast_of_floating (To : NumType) : FloatValue → Except Fault Int
  | .finite x => static_cast_of_double To x
  | _ => .error .not_representable

/-- Body of "Cast to unsigned from floating-point" (lines 97-110). -/
def ArithmeticCast.unsignedFromFloating (To From : NumType) (x : FloatValue) :
    Except Fault Int :=
  let max := static_cast_to_floating From (numeric_limits_max To)
  if x.lt (.finite 0) then .ok 0
  else if !(x.lt max) then
    if x.eq x then .ok (numeric_limits_max To)
    else .ok 0
  else static_cast_of_floating To x

/-- Body of "Cast to signed integer from floating-point" (lines 193-205). -/
def ArithmeticCast.signedFromFloating (To From : NumType) (x : FloatValue) :
    Except Fault Int :=
  let max := static_cast_to_floating From (numeric_limits_max To)
  let min := static_cast_to_floating From (numeric_limits_min To)
  if x.gt max then .ok (numeric_limits_max To)
  else if x.lt min then .ok (numeric_limits_min To)
  else if x.eq x then static_cast_of_floating To x
  else .ok 0

/-- The value `std::numeric_limits<From>::epsilon()`: `2 ^ (1 - digits)`. -/
def numeric_limits_epsilon (From : NumType) : ℚ :=
  mkRat 2 (2 ^ numeric_limits_digits From)

/-- The constant `epsilon` of line 277, `sqrtl(std::numeric_limits<From>::epsilon()*2)`
stored in a `From`.  `sqrtl` is the square root of the C library, taken as correctly
rounded: the constant is the value of the type nearest to the square root, which is
`2 ^ -11` for `float`, exactly, and `6369051672525773 / 2 ^ 78` for `double`. -/
def ArithmeticCast.epsilon (From : NumType) : ℚ :=
  if From.bytes ≤ 4 then mkRat 1 (2 ^ 11)
  else mkRat 6369051672525773 (2 ^ 78)

/-- Body of "Cast to bool from floating-point" (lines 274-280); the result is 1 for
`true` and 0 for `false`. -/
def ArithmeticCast.boolFromFloating (From : NumType) (x : FloatValue) : Except Fault Int :=
  let epsilon := FloatValue.finite (ArithmeticCast.epsilon From)
  .ok (if x.gt epsilon || x.lt epsilon.neg then 1 else 0)

/-- One overload of `ArithmeticCast<To>(From)` for a floating-point `From`: whether its
`enable_if` conditions hold for the pair of types, and its body. -/
structure FloatingOverload where
  enabled : Bool
  body : FloatValue → Except Fault Int

/-- The overloads of `ArithmeticCast<To>(From)` that take a floating-point value and
return an integer or a boolean, in the order of the header, each with its `enable_if`
conditions. -/
def ArithmeticCast.floatingOverloads (To From : NumType) : List FloatingOverload :=
  [ { enabled := !IsBool To && is_unsigned To && !is_floating_point To
        && is_floating_point From,
      body := ArithmeticCast.unsignedFromFloating To From },
    { enabled := !IsBool To && !is_unsigned To && !is_floating_point To
        && is_arithmetic From && is_floating_point From,
      body := ArithmeticCast.signedFromFloating To From },
    { enabled := IsBool To && is_floating_point From,
      body := ArithmeticCast.boolFromFloating From } ]

/-- The call `ArithmeticCast<To>(x)` for a value `x` of the floating-point type `From`
and an integer or boolean `To`: overload resolution selects the overload whose
conditions hold; `none` when the call does not resolve to one of these overloads. -/
def ArithmeticCast.ofFloating (To From : NumType) (x : FloatValue) :
    Option (Except Fault Int) :=
  match (ArithmeticCast.floatingOverloads To From).filter (fun overload => overload.enabled) with
  | [overload] => some (overload.body x)
  | _ => none

/-! ## Condition.h, floating-point value types -/

/-- The overload of `NotNearZero(number)` for a floating-point `T` (lines 192-201):
`number > epsilon || number < -epsilon`, where `epsilon` is
`sqrtl(std::numeric_limits<T>::epsilon()*2)`, the expression of line 277 of
ArithmeticCast.h. -/
def NotNearZero.floating (T : NumType) (number : FloatValue) : Bool :=
  let epsilon := FloatValue.finite (ArithmeticCast.epsilon T)
  number.gt epsilon || number.lt epsilon.neg

/-- Body of "Cast to floating-point from any arithmetic type" (lines 300-303) for an
integer or boolean source: `static_cast<To>(from)`.  It is the only overload of
`ArithmeticCast` whose conditions hold for a floating-point `To`. -/
def ArithmeticCast.floatingFromInteger (To _From : NumType) (v : Int) : FloatValue :=
  static_cast_to_floating To v

/-- The data members of `Condition<V>` (lines 107-112) for a floating-point `V`: as
`Condition`, with a floating-point `value`. -/
structure FloatingCondition (V : NumType) where
  value : FloatValue
  name : String
  store : Option ConditionsStore
  element : Option ConditionElement

namespace FloatingCondition

variable {V : NumType}

/-- The default constructor `Condition()` (line 55). -/
def default (V : NumType) : FloatingCondition V :=
  { value := .finite 0, name := "", store := none, element := none }

/-- The constructor `Condition(const V &value)` (line 56). -/
def ofValue (V : NumType) (value : FloatValue) : FloatingCondition V :=
  { value := value, name := "", store := none, element := none }

/-- The constructor `Condition(const V &value, const NameType &name)` (line 57). -/
def ofValueName (V : NumType) (value : FloatValue) (name : String) : FloatingCondition V :=
  { value := value, name := name, store := none, element := none }

/-- The accessor `Name()` (line 80). -/
def Name (c : FloatingCondition V) : String := c.name

/-- The accessor `HasConditions()` (line 89). -/
def HasConditions (c : FloatingCondition V) : Bool := c.store.isSome

/-- The helper `GetEntryFromStore` (lines 240-253). -/
def GetEntryFromStore (c : FloatingCondition V) (store : ConditionsStore) :
    Option ConditionElement :=
  match c.element with
  | some entry => some entry
  | none => store.GetEntry c.name

/-- The helper `GetFromStore` (lines 217-226); `V()` is 0. -/
def GetFromStore (c : FloatingCondition V) (store : ConditionsStore) : FloatValue :=
  match c.GetEntryFromStore store with
  | none => .finite 0
  | some it =>
    match it.provider with
    | none => ArithmeticCast.floatingFromInteger V store.ValueType it.value
    | some getFunction =>
      ArithmeticCast.floatingFromInteger V store.ValueType (getFunction c.name)

/-- The accessor `Value()` (line 79): `store ? GetFromStore() : value`. -/
def Value (c : FloatingCondition V) : FloatValue :=
  match c.store with
  | some store => c.GetFromStore store
  | none => c.value

end FloatingCondition

/-- The Conditions of a floating-point type that the constructors (lines 55-57) produce.
As for `Condition.Constructible`, no other member writes `store` or `element`. -/
inductive FloatingCondition.Constructible : {V : NumType} → FloatingCondition V → Prop
  | default (V : NumType) : FloatingCondition.Constructible (FloatingCondition.default V)
  | ofValue (V : NumType) (value : FloatValue) :
      FloatingCondition.Constructible (FloatingCondition.ofValue V value)
  | ofValueName (V : NumType) (value : FloatValue) (name : String) :
      FloatingCondition.Constructible (FloatingCondition.ofValueName V value name)

deriving instance DecidableEq for Except

/-- A small list with the weights 2, 1 and 5, used to instantiate the theorems. -/
def sampleList : WeightedList Nat :=
  { choices := [10, 20, 30],
    weights := [Weight.lit 2, Weight.lit 1, Weight.lit 5],
    total := 8 }

/-- A list of two valid weights whose total, `2 ^ 32 + 1`, does not fit an `unsigned`. -/
def wideList : WeightedList Nat :=
  { choices := [10, 20],
    weights := [Weight.lit 3, Weight.lit 4294967294],
    total := 4294967297 }

/-- A store with one entry: the name "x" holds the stored value 5, without a provider. -/
def sampleStore : ConditionsStore :=
  { ValueType := int64_t,
    GetEntry := fun name => if name = "x" then some { value := 5, provider := none } else none }

/-- A Condition of type `V` with the key "x" that holds a handle to `sampleStore`; its
memo `value` is 0 and its cached element has expired. -/
def boundSample (V : NumType) : Condition V :=
  { value := 0, name := "x", store := some sampleStore, element := none }

/-- A getter that has every name, with the value `raw`. -/
def constantGetter (raw : Int) : String → Bool × Int := fun _ => (true, raw)

/-- A getter that has no name. -/
def emptyGetter : String → Bool × Int := fun _ => (false, 0)

/-- The node of the keyword test: alpha, bravo, charlie, three times. -/
def keywordNode : DataNode :=
  { tokens := ["alpha", "bravo", "charlie", "alpha", "bravo", "charlie",
      "alpha", "bravo", "charlie"],
    lineNumber := 1 }

/-- The node of the `ExpectNumber` test, with the large number of the `IsNumber` test
appended. -/
def numberNode : DataNode :=
  { tokens := ["0", "1", "charlie", "0.25", "44", "1000000000000000"], lineNumber := 1 }

/-- A number format that knows the tokens of `numberNode`. -/
def sampleFormat : NumberFormat :=
  { IsNumber := fun token => token ∈ ["0", "1", "0.25", "44", "1000000000000000"],
    Value := fun token =>
      if token = "1" then 1
      else if token = "0.25" then Rat.divInt 1 4
      else if token = "44" then 44
      else if token = "1000000000000000" then 1000000000000000
      else 0 }

/-- A list with the single weight 3. -/
def tripleList : WeightedList Nat :=
  { choices := [10], weights := [Weight.lit 3], total := 3 }

/-- A list of two choices that are both disabled: the weights and the total are 0. -/
def disabledList : WeightedList Nat :=
  { choices := [10, 20], weights := [Weight.lit 0, Weight.lit 0], total := 0 }

/-- A list whose second weight is bound to the key "x". -/
def keyedList : WeightedList Nat :=
  { choices := [10, 20],
    weights := [Weight.lit 2, { value := 1, key := some "x" }],
    total := 3 }

/-- The value `std::numeric_limits<double>::min()`, the smallest positive normal value,
`2 ^ -1022`. -/
def double_min : ℚ := mkRat 1 ((2 ^ 73) ^ 14)

/-- The value `std::numeric_limits<double>::denorm_min()`, the smallest positive
subnormal value, `2 ^ -1074`. -/
def double_denorm_min : ℚ := mkRat 1 ((2 ^ 179) ^ 6)

/-- The value `std::numeric_limits<double>::max()`, `(2 ^ 53 - 1) * 2 ^ 971`; `lowest()`
is its negation. -/
def double_max : ℚ := mkRat (((2 ^ 53 - 1) * (2 ^ 255 * (2 ^ 179) ^ 4) : Nat) : Int) 1

/-- The `double` nearest to 0.01. -/
def double_hundredth : ℚ := mkRat 5764607523034235 (2 ^ 59)

/-- A list whose second weight is 0: the first and the third choice are enabled. -/
def gappedList : WeightedList Nat :=
  { choices := [10, 20, 30],
    weights := [Weight.lit 2, Weight.lit 0, Weight.lit 5],
    total := 7 }

/-! ## Theorems: ArithmeticCast -/

/-- C1: for integer types `To` and `From` of 8 to 64 bits and every value `v` of
`From` that lies in the range of `To`, `ArithmeticCast<To>(v)` is exactly `v`. -/
theorem ArithmeticCast_exact_in_range (To From : NumType) (hTo : IsIntType To)
    (hFrom : IsIntType From) (v : Int) (hv : InRange From v) (hfit : InRange To v) :
    ArithmeticCast To From v = some v := by
  obtain ⟨tk, tb⟩ := To
  obtain ⟨fk, fb⟩ := From
  obtain ⟨htk, htb⟩ := hTo
  obtain ⟨hfk, hfb⟩ := hFrom
  simp only at htk htb hfk hfb
  rcases htk with rfl | rfl <;> rcases hfk with rfl | rfl <;>
    rcases htb with rfl | rfl | rfl | rfl <;> rcases hfb with rfl | rfl | rfl | rfl <;>
    simp [InRange, numeric_limits_max, numeric_limits_min] at hv hfit <;>
    simp [ArithmeticCast, ArithmeticCast.overloads, HigherMaxValue, HigherMaxValue.primary,
      IsBool, is_unsigned,
      is_floating_point, is_arithmetic, ArithmeticCast.unsignedFromLargerUnsigned,
      ArithmeticCast.unsignedFromSmallerUnsigned, ArithmeticCast.unsignedFromSmallerSigned,
      ArithmeticCast.unsignedFromLargerSigned, ArithmeticCast.signedFromLargerSigned,
      ArithmeticCast.signedFromLargerUnsigned, ArithmeticCast.signedFromSmaller,
      static_cast, numeric_limits_max, numeric_limits_min] <;>
    omega

/-- An instance of `ArithmeticCast_exact_in_range`: 65535 from `uint16_t` to `int32_t`. -/
theorem ArithmeticCast_exact_in_range_witness :
    IsIntType int32_t ∧ IsIntType uint16_t ∧ InRange uint16_t 65535 ∧ InRange int32_t 65535 ∧
      ArithmeticCast int32_t uint16_t 65535 = some 65535 :=
  ⟨by decide, by decide, by decide, by decide,
    ArithmeticCast_exact_in_range int32_t uint16_t (by decide) (by decide) 65535
      (by decide) (by decide)⟩

/-- C2: for integer types `To` and `From` of 8 to 64 bits and every value `v` of
`From`, a `v` above the maximum of `To` is cast to that maximum and a `v` below
the minimum of `To` is cast to that minimum (0 when `To` is unsigned). -/
theorem ArithmeticCast_saturates (To From : NumType) (hTo : IsIntType To)
    (hFrom : IsIntType From) (v : Int) (hv : InRange From v) :
    (v > numeric_limits_max To → ArithmeticCast To From v = some (numeric_limits_max To)) ∧
    (v < numeric_limits_min To → ArithmeticCast To From v = some (numeric_limits_min To)) ∧
    (is_unsigned To = true → v < 0 → ArithmeticCast To From v = some 0) := by
  obtain ⟨tk, tb⟩ := To
  obtain ⟨fk, fb⟩ := From
  obtain ⟨htk, htb⟩ := hTo
  obtain ⟨hfk, hfb⟩ := hFrom
  simp only at htk htb hfk hfb
  rcases htk with rfl | rfl <;> rcases hfk with rfl | rfl <;>
    rcases htb with rfl | rfl | rfl | rfl <;> rcases hfb with rfl | rfl | rfl | rfl <;>
    simp [InRange, numeric_limits_max, numeric_limits_min] at hv <;>
    simp [ArithmeticCast, ArithmeticCast.overloads, HigherMaxValue, HigherMaxValue.primary,
      IsBool, is_unsigned,
      is_floating_point, is_arithmetic, ArithmeticCast.unsignedFromLargerUnsigned,
      ArithmeticCast.unsignedFromSmallerUnsigned, ArithmeticCast.unsignedFromSmallerSigned,
      ArithmeticCast.unsignedFromLargerSigned, ArithmeticCast.signedFromLargerSigned,
      ArithmeticCast.signedFromLargerUnsigned, ArithmeticCast.signedFromSmaller,
      static_cast, numeric_limits_max, numeric_limits_min] <;>
    omega

/-- An instance of `ArithmeticCast_saturates`: -1 from `int64_t` to `uint32_t`. -/
theorem ArithmeticCast_saturates_witness :
    IsIntType uint32_t ∧ IsIntType int64_t ∧ InRange int64_t (-1) ∧
      ((-1 : Int) > numeric_limits_max uint32_t →
        ArithmeticCast uint32_t int64_t (-1) = some (numeric_limits_max uint32_t)) ∧
      ((-1 : Int) < numeric_limits_min uint32_t →
        ArithmeticCast uint32_t int64_t (-1) = some (numeric_limits_min uint32_t)) ∧
      (is_unsigned uint32_t = true → (-1 : Int) < 0 →
        ArithmeticCast uint32_t int64_t (-1) = some 0) :=
  ⟨by decide, by decide, by decide,
    ArithmeticCast_saturates uint32_t int64_t (by decide) (by decide) (-1) (by decide)⟩

open WeightedList

/-! ## Lemmas on lists and sums -/

/-- The element right after a front segment `A` is found at index `A.length`. -/
theorem getElem_append_cons_length {α : Type} (A : List α) (b : α) (C : List α) :
    (A ++ b :: C)[A.length]? = some b := by
  rw [List.getElem?_append_right (Nat.le_refl _)]; simp

/-- Running sums of natural numbers grow with the number of terms. -/
theorem sum_take_mono (xs : List Nat) {a b : Nat} (h : a ≤ b) :
    (xs.take a).sum ≤ (xs.take b).sum := by
  have h1 := List.sum_take_add_sum_drop (xs.take b) a
  rw [List.take_take, Nat.min_eq_left h] at h1
  omega

/-- Weights that are all at least 1 sum to at least their number. -/
theorem length_le_sum_values (ws : List Weight) (h : ∀ w ∈ ws, 1 ≤ w.value) :
    ws.length ≤ (weightValues ws).sum := by
  induction ws with
  | nil => simp
  | cons w rest ih =>
    have hw := h w (List.mem_cons_self _ _)
    have := ih (fun x hx => h x (List.mem_cons_of_mem _ hx))
    simp only [weightValues, List.map_cons, List.sum_cons, List.length_cons] at *
    omega

/-! ## Theorems: WeightedList::Get -/

/-- The walk of `Get()` over positive weights `ws`, started behind the weights `pre` with
a draw below the sum of `ws`: it stops at the offset `j` whose interval of running sums
holds the draw. -/
theorem Get_loop_spec : ∀ (ws pre : List Weight) (fuel choice : Nat),
    (∀ w ∈ ws, 1 ≤ w.value) → choice < (weightValues ws).sum → ws.length < fuel →
    (pre ++ ws).length < 2 ^ 32 →
    ∃ j, j < ws.length ∧ Get.loop (pre ++ ws) fuel choice pre.length = .ok (pre.length + j) ∧
      ((weightValues ws).take j).sum ≤ choice ∧ choice < ((weightValues ws).take (j + 1)).sum := by
  intro ws
  induction ws with
  | nil => intro pre fuel choice _ h; simp [weightValues] at h
  | cons w rest ih =>
    intro pre fuel choice hpos hc hfuel hlen
    obtain ⟨f, rfl⟩ : ∃ f, fuel = f + 1 := ⟨fuel - 1, by simp at hfuel; omega⟩
    have hw := hpos w (List.mem_cons_self _ _)
    have hget := getElem_append_cons_length pre w rest
    simp only [weightValues, List.map_cons, List.sum_cons] at hc ih ⊢
    simp only [List.length_cons, List.length_append] at hfuel hlen
    by_cases hcw : choice < w.value
    · refine ⟨0, by simp, ?_, by simp, by simpa using hcw⟩
      rw [Get.loop, hget]
      simp [hcw]
    · have hlen' : ((pre ++ [w]) ++ rest).length < 2 ^ 32 := by
        simp only [List.length_append, List.length_singleton]; omega
      obtain ⟨j, hj, hloop, h1, h2⟩ := ih (pre ++ [w]) f (choice - w.value)
        (fun x hx => hpos x (List.mem_cons_of_mem _ hx)) (by omega) (by omega) hlen'
      refine ⟨j + 1, by simp only [List.length_cons]; omega, ?_, ?_, ?_⟩
      · simp only [List.append_assoc, List.singleton_append, List.length_append,
          List.length_singleton] at hloop
        have h3 : (pre.length + 1) % 2 ^ 32 = pre.length + 1 := by omega
        have h4 : (w.value != 0 && decide (choice ≥ w.value)) = true := by
          simp; omega
        rw [Get.loop, hget]
        simp only [h4, if_true, h3, hloop]
        congr 1; omega
      · simp only [List.take_succ_cons, List.sum_cons] at h1 ⊢; omega
      · simp only [List.take_succ_cons, List.sum_cons] at h2 ⊢; omega

/-- What `Get()` does while the total fits the `unsigned` variable of the walk: for a
non-empty list whose weights are all at least 1, whose cached total is the sum of the
weights and is below `2 ^ 32`, `Get()` returns index `i` exactly for the draws
`r` with `r < weights[0] + ... + weights[i]` for which no smaller index has that
property; the number of such draws in `[0, total)` is `weights[i]`, and the element
returned for them is `choices[i]`. -/
theorem Get_selects_in_proportion {T : Type} (l : WeightedList T) (fuel i : Nat)
    (hne : l.choices ≠ []) (hpos : ∀ w ∈ l.weights, 1 ≤ w.value) (hinv : l.Invariant)
    (h32 : l.total < 2 ^ 32) (hfuel : l.weights.length < fuel) (hi : i < l.weights.length) :
    (∀ r, r < l.total →
      (Get.index l r fuel = .ok i ↔
        (r < ((weightValues l.weights).take (i + 1)).sum ∧
          ∀ j, j < i → ((weightValues l.weights).take (j + 1)).sum ≤ r))) ∧
    ((Finset.range l.total).filter (fun r => Get.index l r fuel = .ok i)).card
      = (l.weights.get ⟨i, hi⟩).value ∧
    (∃ c, l.choices[i]? = some c ∧
      ∀ r, r < l.total → Get.index l r fuel = .ok i → Get l r fuel = .ok c) := by
  obtain ⟨hlen, htot⟩ := hinv
  have hle := length_le_sum_values l.weights hpos
  -- every draw below the total selects the index whose interval of running sums holds it
  have key : ∀ r, r < l.total →
      (Get.index l r fuel = .ok i ↔
        (((weightValues l.weights).take i).sum ≤ r ∧
          r < ((weightValues l.weights).take (i + 1)).sum)) := by
    intro r hr
    have hidx : Get.index l r fuel = Get.loop l.weights fuel r 0 := by
      have h1 : l.choices.isEmpty = false := by
        cases hc : l.choices with
        | nil => exact absurd hc hne
        | cons a as => rfl
      have h2 : l.total ≠ 0 := by omega
      have h3 : r % 4294967296 = r := by omega
      simp [Get.index, h1, h2, h3]
    obtain ⟨j, hj, hloop, hlo, hhi⟩ := Get_loop_spec l.weights [] fuel r hpos (by omega) hfuel
      (by simp only [List.nil_append]; omega)
    simp only [List.nil_append, List.length_nil, Nat.zero_add] at hloop
    rw [hidx, hloop]
    constructor
    · intro h
      have : j = i := by injection h
      subst this; exact ⟨hlo, hhi⟩
    · rintro ⟨h1, h2⟩
      have : j = i := by
        rcases Nat.lt_trichotomy j i with h | h | h
        · have := sum_take_mono (weightValues l.weights) (show j + 1 ≤ i by omega); omega
        · exact h
        · have := sum_take_mono (weightValues l.weights) (show i + 1 ≤ j by omega); omega
      rw [this]
  have hsucc : ((weightValues l.weights).take (i + 1)).sum
      = ((weightValues l.weights).take i).sum + (l.weights.get ⟨i, hi⟩).value := by
    rw [List.sum_take_succ _ i (by simpa [weightValues] using hi)]
    simp [weightValues]
  have hupper : ((weightValues l.weights).take (i + 1)).sum ≤ l.total := by
    rw [htot]
    have := List.sum_take_add_sum_drop (weightValues l.weights) (i + 1)
    omega
  refine ⟨?_, ?_, ?_⟩
  · intro r hr
    rw [key r hr]
    constructor
    · rintro ⟨h1, h2⟩
      refine ⟨h2, fun j hj => ?_⟩
      have := sum_take_mono (weightValues l.weights) (show j + 1 ≤ i by omega); omega
    · rintro ⟨h1, h2⟩
      refine ⟨?_, h1⟩
      cases i with
      | zero => simp
      | succ k => exact h2 k (by omega)
  · have hset : (Finset.range l.total).filter (fun r => Get.index l r fuel = .ok i)
        = Finset.Ico ((weightValues l.weights).take i).sum
            ((weightValues l.weights).take (i + 1)).sum := by
      ext r
      simp only [Finset.mem_filter, Finset.mem_range, Finset.mem_Ico]
      constructor
      · rintro ⟨hr, h⟩; exact (key r hr).1 h
      · rintro ⟨h1, h2⟩
        have hr : r < l.total := by omega
        exact ⟨hr, (key r hr).2 ⟨h1, h2⟩⟩
    rw [hset, Nat.card_Ico, hsucc]; omega
  · have hic : i < l.choices.length := by omega
    refine ⟨l.choices[i], List.getElem?_eq_getElem hic, ?_⟩
    intro r _ h
    simp [Get, h, List.getElem?_eq_getElem hic]

/-- An instance of `Get_selects_in_proportion`: five of the eight draws select the third element. -/
theorem Get_selects_in_proportion_witness :
    sampleList.choices ≠ [] ∧ (∀ w ∈ sampleList.weights, 1 ≤ w.value) ∧ sampleList.Invariant ∧
    ((Finset.range sampleList.total).filter (fun r => Get.index sampleList r 4 = .ok 2)).card = 5 :=
  ⟨by decide, by decide, by decide,
    (Get_selects_in_proportion sampleList 4 2 (by decide) (by decide) (by decide) (by decide)
      (by decide) (by decide)).2.1⟩

/-- C4: `Get()` does not select in proportion to the weights when the total does not
fit 32 bits, because the draw over the `std::size_t` total is held in an `unsigned`
(line 156).  The list built by two calls of `emplace_back` with the weights 3 and
4294967294 has weights that are all at least 1 and a total that is their sum; the draw
`2 ^ 32` is below the total and not below the first weight, and still selects index 0,
so the number of draws that select index 0 is not the weight 3. -/
theorem Get_proportion_fails_for_wide_total :
    ((WeightedList.empty.emplace_back (Weight.lit 3) 10).emplace_back
      (Weight.lit 4294967294) 20).choices = wideList.choices ∧
    ((WeightedList.empty.emplace_back (Weight.lit 3) 10).emplace_back
      (Weight.lit 4294967294) 20).weights = wideList.weights ∧
    ((WeightedList.empty.emplace_back (Weight.lit 3) 10).emplace_back
      (Weight.lit 4294967294) 20).total = wideList.total ∧
    wideList.choices ≠ [] ∧ (∀ w ∈ wideList.weights, 1 ≤ w.value) ∧ wideList.Invariant ∧
    (wideList.weights.map Weight.value = [3, 4294967294]) ∧
    (4294967296 < wideList.total ∧ Get.index wideList 4294967296 3 = .ok 0 ∧
      ¬ (4294967296 < ((weightValues wideList.weights).take 1).sum)) ∧
    ((Finset.range wideList.total).filter (fun r => Get.index wideList r 3 = .ok 0)).card ≠ 3 := by
  refine ⟨by decide, by decide, by decide, by decide, by decide, by decide, by decide,
    by decide, ?_⟩
  have hsub : ({0, 1, 2, 4294967296} : Finset Nat) ⊆
      (Finset.range wideList.total).filter (fun r => Get.index wideList r 3 = .ok 0) := by
    intro r hr
    simp only [Finset.mem_insert, Finset.mem_singleton] at hr
    rw [Finset.mem_filter, Finset.mem_range]
    rcases hr with rfl | rfl | rfl | rfl <;> decide
  have hcard := Finset.card_le_card hsub
  have h4 : ({0, 1, 2, 4294967296} : Finset Nat).card = 4 := by decide
  omega

/-- C3: what the source does on the weights 0, 0, 5: the loop condition
`weights[index] && ...` is false at the first entry, so for every draw `Get()` returns
the first element, whose weight is 0, and never the third. -/
theorem Get_stops_at_zero_weight {T : Type} (a b c : T) (draw fuel : Nat) :
    Get { choices := [a, b, c],
          weights := [Weight.lit 0, Weight.lit 0, Weight.lit 5],
          total := 5 } draw (fuel + 1) = .ok a := by
  simp [Get, Get.index, Get.loop, Weight.lit]

/-! ## Theorems: erase_if and the class invariant -/

/-- Either every element satisfies `p`, or there is a last element that does not. -/
theorem split_at_last_kept {α : Type} (p : α → Bool) (l : List α) :
    (∀ x ∈ l, p x = true) ∨
      ∃ mid y S, l = mid ++ y :: S ∧ p y = false ∧ ∀ s ∈ S, p s = true := by
  induction l with
  | nil => left; simp
  | cons a l ih =>
    rcases ih with h | ⟨mid, y, S, rfl, hy, hS⟩
    · by_cases ha : p a = true
      · left; intro x hx
        rcases List.mem_cons.1 hx with rfl | hx
        · exact ha
        · exact h x hx
      · right; exact ⟨[], a, l, rfl, by simpa using ha, h⟩
    · right; exact ⟨a :: mid, y, S, rfl, hy, hS⟩

/-- The inner loop of `erase_if`: when the `k` elements at `available`, `available - 1`,
... all match and the walk then meets `index` or an element that does not match, it
steps `available` down by `k` and counts `k` more erased elements. -/
theorem erase_if_scan_spec {T : Type} (pred : T → Bool) (choices : List T) (index : Nat) :
    ∀ (k fuel a e : Nat), k < fuel → index + k ≤ a → a < 2 ^ 32 → e + k < 2 ^ 64 →
      (∀ j, a - k < j → j ≤ a → ∃ c, choices[j]? = some c ∧ pred c = true) →
      (index = a - k ∨ ∃ c, choices[a - k]? = some c ∧ pred c = false) →
      erase_if.scan pred choices index fuel a e = .ok (a - k, e + k) := by
  intro k
  induction k with
  | zero =>
    intro fuel a e hf _ _ _ _ hstop
    obtain ⟨f, rfl⟩ : ∃ f, fuel = f + 1 := ⟨fuel - 1, by omega⟩
    rw [erase_if.scan]
    by_cases hia : index = a
    · simp [hia]
    · rcases hstop with h | ⟨c, hc, hp⟩
      · exact absurd h hia
      · simp only [Nat.sub_zero] at hc
        simp [hia, hc, hp]
  | succ k ih =>
    intro fuel a e hf hik ha he hall hstop
    obtain ⟨f, rfl⟩ : ∃ f, fuel = f + 1 := ⟨fuel - 1, by omega⟩
    obtain ⟨c, hc, hp⟩ := hall a (by omega) (Nat.le_refl _)
    have hia : index ≠ a := by omega
    have h1 : (a + 2 ^ 32 - 1) % 2 ^ 32 = a - 1 := by omega
    have h2 : (e + 1) % 2 ^ 64 = e + 1 := by omega
    rw [erase_if.scan]
    simp only [hia, ne_eq, not_false_eq_true, if_true, hc, hp, h1, h2]
    have hk : k < f := by omega
    have hik' : index + k ≤ a - 1 := by omega
    have ha' : a - 1 < 2 ^ 32 := by omega
    have he' : e + 1 + k < 2 ^ 64 := by omega
    have hall' : ∀ j, a - 1 - k < j → j ≤ a - 1 → ∃ c, choices[j]? = some c ∧ pred c = true :=
      fun j hj1 hj2 => hall j (by omega) (by omega)
    have hstop' : index = a - 1 - k ∨ ∃ c, choices[a - 1 - k]? = some c ∧ pred c = false := by
      rw [show a - 1 - k = a - (k + 1) by omega]; exact hstop
    rw [ih f (a - 1) (e + 1) hk hik' ha' he' hall' hstop']
    have e1 : a - 1 - k = a - (k + 1) := by omega
    have e2 : e + 1 + k = e + (k + 1) := by omega
    rw [e1, e2]


/-- Reading both vectors inside the middle segment `B` of `A ++ B ++ C`. -/
theorem getElem_map_fst_mid {T W : Type} (A B C : List (T × W)) (j : Nat)
    (h1 : A.length ≤ j) (h2 : j < A.length + B.length) :
    ∃ x ∈ B, ((A ++ B ++ C).map Prod.fst)[j]? = some x.1 ∧
      ((A ++ B ++ C).map Prod.snd)[j]? = some x.2 := by
  have hj : j - A.length < B.length := by omega
  refine ⟨B[j - A.length], List.getElem_mem _, ?_, ?_⟩
  · rw [List.getElem?_map, List.append_assoc, List.getElem?_append_right h1,
      List.getElem?_append_left hj, List.getElem?_eq_getElem hj]; rfl
  · rw [List.getElem?_map, List.append_assoc, List.getElem?_append_right h1,
      List.getElem?_append_left hj, List.getElem?_eq_getElem hj]; rfl

/-- Overwriting the element right after the front segment `A`. -/
theorem map_set_append_cons {α β : Type} (f : α → β) (A : List α) (b b' : α) (C : List α) :
    ((A ++ b :: C).map f).set A.length (f b') = (A ++ b' :: C).map f := by
  rw [List.map_append, List.map_cons, List.set_append_right _ _ (by simp)]
  simp

/-- The `for` loop of `erase_if` on the vectors of the pairs `P ++ M ++ D`, where `P` is
the part already compacted, `M` the window still to be examined and `D` the slots
already given up: it returns `P ++ K ++ D'` with `K` a permutation of the pairs of `M`
that do not match, and a pair of `M` that does not match and lies below `K.length`
keeps its position. -/
theorem erase_if_loop_spec {T : Type} (pred : T → Bool) :
    ∀ (fuel : Nat) (P M D : List (T × Weight)),
      M.length < fuel → (P ++ M ++ D).length < 2 ^ 32 →
      ∃ K D' : List (T × Weight),
        erase_if.loop pred fuel ((P ++ M ++ D).map Prod.fst) ((P ++ M ++ D).map Prod.snd)
            P.length ((P.length + M.length + 2 ^ 32 - 1) % 2 ^ 32) D.length
          = .ok ((P ++ K ++ D').map Prod.fst, (P ++ K ++ D').map Prod.snd, D'.length) ∧
        K.length + D'.length = M.length + D.length ∧
        K.Perm (M.filter (fun x => !pred x.1)) ∧
        (∀ i x, i < K.length → M[i]? = some x → pred x.1 = false → K[i]? = some x) := by
  intro fuel
  induction fuel with
  | zero => intro P M D h; omega
  | succ f ih =>
    intro P M D hf hlen
    cases M with
    | nil =>
      refine ⟨[], D, ?_, by simp, by simp, by simp⟩
      rw [erase_if.loop]
      have hc : ¬ (P.length < ((List.map Prod.fst (P ++ [] ++ D)).length + 2 ^ 64 - D.length) % 2 ^ 64) := by
        simp only [List.length_map, List.length_append, List.length_nil] at hlen ⊢
        omega
      simp only [hc, if_false]
    | cons x rest =>
      simp only [List.length_append, List.length_cons] at hf hlen
      have hcond : P.length <
          ((List.map Prod.fst (P ++ x :: rest ++ D)).length + 2 ^ 64 - D.length) % 2 ^ 64 := by
        simp only [List.length_map, List.length_append, List.length_cons]
        omega
      have hx : (List.map Prod.fst (P ++ x :: rest ++ D))[P.length]? = some x.1 := by
        rw [List.getElem?_map, List.append_assoc, List.cons_append, getElem_append_cons_length]
        rfl
      rw [erase_if.loop]
      simp only [hcond, if_true, hx, List.length_cons]
      clear hcond hx
      have hnext : (P.length + 1) % 2 ^ 32 = P.length + 1 := by omega
      cases hpx : pred x.1 with
      | false =>
        obtain ⟨K, D', hloop, hlenK, hperm, hkeep⟩ := ih (P ++ [x]) rest D (by omega)
          (by simp only [List.length_append, List.length_singleton]; omega)
        refine ⟨x :: K, D', ?_, ?_, ?_, ?_⟩
        · simp only [Bool.false_eq_true, if_false, hnext]
          have e1 : P ++ x :: rest ++ D = P ++ [x] ++ rest ++ D := by simp
          have e2 : P ++ x :: K ++ D' = P ++ [x] ++ K ++ D' := by simp
          have e3 : (P.length + (rest.length + 1) + 2 ^ 32 - 1) % 2 ^ 32
              = ((P ++ [x]).length + rest.length + 2 ^ 32 - 1) % 2 ^ 32 := by
            simp only [List.length_append, List.length_singleton]; congr 1; omega
          have e4 : P.length + 1 = (P ++ [x]).length := by simp
          rw [e1, e2, e3, e4]; exact hloop
        · simp only [List.length_cons]; omega
        · simp only [List.filter_cons, hpx, Bool.not_false, if_true]
          exact hperm.cons x
        · intro i y hi hy hpy
          cases i with
          | zero => simpa using hy
          | succ i =>
            simp only [List.length_cons] at hi
            simp only [List.getElem?_cons_succ] at hy ⊢
            exact hkeep i y (by omega) hy hpy
      | true =>
        simp only [if_true]
        rcases split_at_last_kept (fun y : T × Weight => pred y.1) rest with hall | ⟨mid, y, S, rfl, hy, hS⟩
        · -- every later element matches: the scan comes back to `index`
          have hscan := erase_if_scan_spec pred (List.map Prod.fst (P ++ x :: rest ++ D)) P.length
            rest.length f (P.length + rest.length) D.length (by omega) (by omega) (by omega) (by omega)
            (by
              intro j hj1 hj2
              obtain ⟨z, hz, hz1, _⟩ := getElem_map_fst_mid (P ++ [x]) rest D j
                (by simp only [List.length_append, List.length_singleton]; omega)
                (by simp only [List.length_append, List.length_singleton]; omega)
              refine ⟨z.1, ?_, hall z hz⟩
              simpa using hz1)
            (Or.inl (by omega))
          have ha : (P.length + (rest.length + 1) + 2 ^ 32 - 1) % 2 ^ 32 = P.length + rest.length := by
            omega
          have hb : P.length + rest.length - rest.length = P.length := by omega
          rw [ha, hscan, hb]
          simp only [ne_eq, not_true_eq_false, if_false]
          obtain ⟨f', rfl⟩ : ∃ f', f = f' + 1 := ⟨f - 1, by omega⟩
          rw [erase_if.loop]
          have hc : ¬ ((P.length + 1) % 2 ^ 32 <
              ((List.map Prod.fst (P ++ x :: rest ++ D)).length + 2 ^ 64
                - (D.length + rest.length + 1) % 2 ^ 64) % 2 ^ 64) := by
            simp only [List.length_map, List.length_append, List.length_cons]
            omega
          simp only [hc, if_false]
          refine ⟨[], x :: rest ++ D, ?_, ?_, ?_, by simp⟩
          · have e5 : (D.length + rest.length + 1) % 2 ^ 64 = (x :: rest ++ D).length := by
              simp only [List.length_append, List.length_cons]; omega
            rw [e5]; simp
          · simp only [List.length_append, List.length_cons, List.length_nil]; omega
          · have : List.filter (fun z : T × Weight => !pred z.1) (x :: rest) = [] := by
              rw [List.filter_eq_nil_iff]
              intro z hz
              rcases List.mem_cons.1 hz with rfl | hz
              · simp [hpx]
              · simp [hall z hz]
            rw [this]
        · -- `y` is the last element that is kept: it is moved to `index`
          have eA : P ++ x :: (mid ++ y :: S) ++ D = (P ++ [x] ++ mid ++ [y]) ++ S ++ D := by simp
          have eB : P ++ x :: (mid ++ y :: S) ++ D = (P ++ [x] ++ mid) ++ [y] ++ (S ++ D) := by simp
          have eC : P ++ x :: (mid ++ y :: S) ++ D = P ++ x :: (mid ++ y :: S ++ D) := by simp
          simp only [List.length_append, List.length_cons] at hf hlen ⊢
          have hyget := getElem_map_fst_mid (P ++ [x] ++ mid) [y] (S ++ D) (P.length + mid.length + 1)
            (by simp only [List.length_append, List.length_singleton]; omega)
            (by simp only [List.length_append, List.length_singleton]; omega)
          obtain ⟨y', hy', hy1, hy2⟩ := hyget
          obtain rfl : y' = y := by simpa using hy'
          rw [← eB] at hy1 hy2
          have hscan := erase_if_scan_spec pred (List.map Prod.fst (P ++ x :: (mid ++ y' :: S) ++ D))
            P.length S.length f (P.length + mid.length + 1 + S.length) D.length
            (by omega) (by omega) (by omega) (by omega)
            (by
              intro j hj1 hj2
              obtain ⟨z, hz, hz1, _⟩ := getElem_map_fst_mid (P ++ [x] ++ mid ++ [y']) S D j
                (by simp only [List.length_append, List.length_singleton]; omega)
                (by simp only [List.length_append, List.length_singleton]; omega)
              rw [← eA] at hz1
              exact ⟨z.1, hz1, hS z hz⟩)
            (Or.inr ⟨y'.1, by
              rw [show P.length + mid.length + 1 + S.length - S.length
                = P.length + mid.length + 1 by omega]
              exact hy1, hy⟩)
          have ha : (P.length + (mid.length + (S.length + 1) + 1) + 2 ^ 32 - 1) % 2 ^ 32
              = P.length + mid.length + 1 + S.length := by omega
          have hb : P.length + mid.length + 1 + S.length - S.length = P.length + mid.length + 1 := by
            omega
          rw [ha, hscan, hb]
          clear ha hb hscan
          have hmf : mid.length < f := by omega
          have hne : P.length ≠ P.length + mid.length + 1 := by omega
          have hwl : P.length < (List.map Prod.snd (P ++ x :: (mid ++ y' :: S) ++ D)).length := by
            simp only [List.length_map, List.length_append, List.length_cons]; omega
          simp only [hne, ne_eq, not_false_eq_true, if_true, hy1, hy2, hwl, hnext]
          obtain ⟨K, D', hloop, hlenK, hperm, hkeep⟩ := ih (P ++ [y']) mid (y' :: S ++ D) hmf
            (by simp only [List.length_append, List.length_singleton, List.length_cons, List.length_nil]; omega)
          refine ⟨y' :: K, D', ?_, ?_, ?_, ?_⟩
          · have s1 : (List.map Prod.fst (P ++ x :: (mid ++ y' :: S) ++ D)).set P.length y'.1
                = List.map Prod.fst (P ++ [y'] ++ mid ++ (y' :: S ++ D)) := by
              rw [eC, map_set_append_cons Prod.fst P x y']; simp
            have s2 : (List.map Prod.snd (P ++ x :: (mid ++ y' :: S) ++ D)).set P.length y'.2
                = List.map Prod.snd (P ++ [y'] ++ mid ++ (y' :: S ++ D)) := by
              rw [eC, map_set_append_cons Prod.snd P x y']; simp
            have s3 : (P.length + mid.length + 1 + 2 ^ 32 - 1) % 2 ^ 32
                = ((P ++ [y']).length + mid.length + 2 ^ 32 - 1) % 2 ^ 32 := by
              simp only [List.length_append, List.length_singleton]
              rw [show P.length + mid.length + 1 = P.length + 1 + mid.length by omega]
            have s4 : (D.length + S.length + 1) % 2 ^ 64 = (y' :: S ++ D).length := by
              simp only [List.length_append, List.length_cons]; omega
            have s5 : P.length + 1 = (P ++ [y']).length := by simp
            have s6 : P ++ y' :: K ++ D' = P ++ [y'] ++ K ++ D' := by simp
            rw [s1, s2, s3, s4, s5, s6]; exact hloop
          · simp only [List.length_append, List.length_cons] at hlenK ⊢; omega
          · have hfS : List.filter (fun z : T × Weight => !pred z.1) S = [] := by
              rw [List.filter_eq_nil_iff]
              intro z hz; simp [hS z hz]
            simp only [List.filter_cons, List.filter_append, hpx, hy, hfS, Bool.not_true,
              Bool.not_false, if_true, if_false, Bool.false_eq_true]
            exact ((hperm.cons y').trans (List.perm_append_singleton y' _).symm)
          · intro i z hi hz hpz
            cases i with
            | zero =>
              simp only [List.getElem?_cons_zero, Option.some.injEq] at hz
              subst hz; rw [hpx] at hpz; exact absurd hpz (by simp)
            | succ i =>
              simp only [List.length_cons] at hi
              have hKm : K.length ≤ mid.length := by
                rw [hperm.length_eq]; exact List.length_filter_le _ _
              simp only [List.getElem?_cons_succ] at hz ⊢
              rw [List.getElem?_append_left (by omega)] at hz
              exact hkeep i z (by omega) hz hpz

/-- The accumulation of `RecalculateWeight` is the sum of the weights modulo `2 ^ 64`. -/
theorem RecalculateWeight_sum_eq_mod (weights : List Weight) : ∀ acc : Nat, acc < 2 ^ 64 →
    weights.foldl (fun total weight => (total + weight.value) % 2 ^ 64) acc
      = (acc + (weightValues weights).sum) % 2 ^ 64 := by
  induction weights with
  | nil => intro acc h; simp [weightValues]; omega
  | cons w ws ih =>
    intro acc h
    simp only [List.foldl_cons, weightValues, List.map_cons, List.sum_cons]
    rw [ih _ (Nat.mod_lt _ (by norm_num))]
    simp only [weightValues]
    omega

/-- A sum of `unsigned` weights is at most their number times `2 ^ 32 - 1`. -/
theorem sum_values_le (weights : List Weight) (h : ∀ w ∈ weights, w.value < 2 ^ 32) :
    (weightValues weights).sum ≤ weights.length * 4294967295 := by
  induction weights with
  | nil => simp [weightValues]
  | cons w ws ih =>
    have hw := h w (List.mem_cons_self _ _)
    have := ih (fun x hx => h x (List.mem_cons_of_mem _ hx))
    simp only [weightValues, List.map_cons, List.sum_cons, List.length_cons] at *
    omega

/-- On at most `2 ^ 32` weights of type `unsigned` the accumulation does not wrap. -/
theorem RecalculateWeight_sum_exact (weights : List Weight)
    (hlen : weights.length ≤ 2 ^ 32) (h : ∀ w ∈ weights, w.value < 2 ^ 32) :
    RecalculateWeight.sum weights = (weightValues weights).sum := by
  have h1 := sum_values_le weights h
  rw [RecalculateWeight.sum, RecalculateWeight_sum_eq_mod weights 0 (by norm_num)]
  omega

/-- Zipping the two projections of a list of pairs gives the list back. -/
theorem zip_map_fst_snd {α β : Type} (K : List (α × β)) :
    List.zip (K.map Prod.fst) (K.map Prod.snd) = K := by
  induction K with
  | nil => rfl
  | cons a K ih => simp [ih]

/-- What `erase_if` returns on a list with aligned vectors of fewer than `2 ^ 32`
entries, in terms of the surviving pairs `K`. -/
theorem erase_if_spec {T : Type} (l : WeightedList T) (pred : T → Bool) (fuel : Nat)
    (hlen : l.choices.length = l.weights.length) (h32 : l.choices.length < 2 ^ 32)
    (hfuel : l.choices.length < fuel) :
    ∃ K : List (T × Weight),
      erase_if l pred fuel
        = .ok ({ choices := K.map Prod.fst, weights := K.map Prod.snd,
                 total := RecalculateWeight.sum (K.map Prod.snd) },
               l.choices.length - K.length) ∧
      K.Perm ((l.choices.zip l.weights).filter (fun x => !pred x.1)) ∧
      (∀ i x, i < K.length → (l.choices.zip l.weights)[i]? = some x → pred x.1 = false →
        K[i]? = some x) := by
  have hz : (l.choices.zip l.weights).length = l.choices.length := by
    simp [List.length_zip, hlen]
  obtain ⟨K, D', hloop, hlenK, hperm, hkeep⟩ :=
    erase_if_loop_spec pred fuel [] (l.choices.zip l.weights) [] (by omega)
      (by simp only [List.nil_append, List.append_nil]; omega)
  simp only [List.nil_append, List.append_nil, List.length_nil, Nat.zero_add] at hloop hlenK
  rw [List.map_fst_zip _ _ (by omega), List.map_snd_zip _ _ (by omega), hz] at hloop
  have hav : (l.choices.length + 2 ^ 64 - 1) % 2 ^ 64 % 2 ^ 32
      = (l.choices.length + 2 ^ 32 - 1) % 2 ^ 32 := by omega
  refine ⟨K, ?_, hperm, hkeep⟩
  rw [erase_if]
  simp only [hav, hloop]
  have h1 : D'.length ≤ (List.map Prod.fst (K ++ D')).length ∧
      D'.length ≤ (List.map Prod.snd (K ++ D')).length := by
    simp
  rw [if_pos h1]
  have h2 : List.take ((List.map Prod.fst (K ++ D')).length - D'.length)
      (List.map Prod.fst (K ++ D')) = K.map Prod.fst := by
    simp [List.take_append_eq_append_take, List.take_of_length_le]
  have h3 : List.take ((List.map Prod.snd (K ++ D')).length - D'.length)
      (List.map Prod.snd (K ++ D')) = K.map Prod.snd := by
    simp [List.take_append_eq_append_take, List.take_of_length_le]
  rw [h2, h3]
  have h4 : D'.length = l.choices.length - K.length := by omega
  rw [h4]
  rfl


/-- The elements that do not satisfy `p` and those that do add up to the whole list. -/
theorem length_filter_not_add_countP {α : Type} (p : α → Bool) (L : List α) :
    (L.filter (fun x => !p x)).length + L.countP p = L.length := by
  induction L with
  | nil => rfl
  | cons a L ih =>
    cases h : p a <;> simp [List.filter_cons, List.countP_cons, h] <;> omega

/-- C6: `erase_if(list, pred)` returns the number of elements of the list that satisfy
`pred`, the size decreases by that number, and no element that remains satisfies
`pred`. -/
theorem erase_if_returns_number_erased {T : Type} (l : WeightedList T) (pred : T → Bool)
    (fuel : Nat) (hinv : l.Invariant) (hrep : l.Representable) (hfuel : l.size < fuel) :
    ∃ l' n, erase_if l pred fuel = .ok (l', n) ∧ n = l.choices.countP pred ∧
      l'.size + n = l.size ∧ ∀ c ∈ l'.choices, pred c = false := by
  obtain ⟨K, hres, hperm, -⟩ := erase_if_spec l pred fuel hinv.1 hrep.1 hfuel
  have hfst : (l.choices.zip l.weights).map Prod.fst = l.choices :=
    List.map_fst_zip _ _ (by rw [hinv.1])
  have hK : K.length + l.choices.countP pred = l.choices.length := by
    have h1 := length_filter_not_add_countP (fun x : T × Weight => pred x.1)
      (l.choices.zip l.weights)
    have h2 : List.countP (fun x : T × Weight => pred x.1) (l.choices.zip l.weights)
        = l.choices.countP pred := by
      conv_rhs => rw [← hfst]
      rw [List.countP_map]; rfl
    have h3 : (l.choices.zip l.weights).length = l.choices.length := by
      simp [List.length_zip, hinv.1]
    rw [hperm.length_eq]; omega
  refine ⟨_, _, hres, by omega, by simp only [size, List.length_map]; omega, ?_⟩
  intro c hc
  obtain ⟨x, hx, rfl⟩ := List.mem_map.1 hc
  have := (List.mem_filter.1 (hperm.mem_iff.1 hx)).2
  simpa using this

/-- An instance of `erase_if_returns_number_erased` on the sample list. -/
theorem erase_if_returns_number_erased_witness :
    sampleList.Invariant ∧ sampleList.Representable ∧ sampleList.size < 4 ∧
    ∃ l' n, erase_if sampleList (fun c => c == 10) 4 = .ok (l', n) ∧
      n = sampleList.choices.countP (fun c => c == 10) ∧
      l'.size + n = sampleList.size ∧ ∀ c ∈ l'.choices, (c == 10) = false :=
  ⟨by decide, by decide, by decide,
    erase_if_returns_number_erased sampleList (fun c => c == 10) 4 (by decide) (by decide)
      (by decide)⟩

/-- C7: after `erase_if` the choices and weights are aligned, and the (element, weight)
pairs are, as a multiset, the pairs of the original list whose element does not satisfy
`pred`. -/
theorem erase_if_keeps_weights_aligned {T : Type} (l : WeightedList T) (pred : T → Bool)
    (fuel : Nat) (hinv : l.Invariant) (hrep : l.Representable) (hfuel : l.size < fuel) :
    ∃ l' n, erase_if l pred fuel = .ok (l', n) ∧ l'.choices.length = l'.weights.length ∧
      (l'.choices.zip l'.weights).Perm
        ((l.choices.zip l.weights).filter (fun x => !pred x.1)) := by
  obtain ⟨K, hres, hperm, -⟩ := erase_if_spec l pred fuel hinv.1 hrep.1 hfuel
  refine ⟨_, _, hres, by simp, ?_⟩
  simp only [zip_map_fst_snd]
  exact hperm

/-- An instance of `erase_if_keeps_weights_aligned` on the sample list. -/
theorem erase_if_keeps_weights_aligned_witness :
    sampleList.Invariant ∧ sampleList.Representable ∧ sampleList.size < 4 ∧
    ∃ l' n, erase_if sampleList (fun c => c == 10) 4 = .ok (l', n) ∧
      l'.choices.length = l'.weights.length ∧
      (l'.choices.zip l'.weights).Perm
        ((sampleList.choices.zip sampleList.weights).filter (fun x => !(x.1 == 10))) :=
  ⟨by decide, by decide, by decide,
    erase_if_keeps_weights_aligned sampleList (fun c => c == 10) 4 (by decide) (by decide)
      (by decide)⟩

/-- C8 (amended): after `erase_if` the choices are a permutation of the original
choices that do not satisfy `pred`, and a surviving element whose original position is
below the new size stays at that position. -/
theorem erase_if_permutes_survivors {T : Type} (l : WeightedList T) (pred : T → Bool)
    (fuel : Nat) (hinv : l.Invariant) (hrep : l.Representable) (hfuel : l.size < fuel) :
    ∃ l' n, erase_if l pred fuel = .ok (l', n) ∧
      l'.choices.Perm (l.choices.filter (fun c => !pred c)) ∧
      ∀ i c, i < l'.choices.length → l.choices[i]? = some c → pred c = false →
        l'.choices[i]? = some c := by
  obtain ⟨K, hres, hperm, hkeep⟩ := erase_if_spec l pred fuel hinv.1 hrep.1 hfuel
  have hfst : (l.choices.zip l.weights).map Prod.fst = l.choices :=
    List.map_fst_zip _ _ (by rw [hinv.1])
  refine ⟨_, _, hres, ?_, ?_⟩
  · have h1 := hperm.map Prod.fst
    have h2 : List.map Prod.fst (List.filter (fun x : T × Weight => !pred x.1)
        (l.choices.zip l.weights)) = l.choices.filter (fun c => !pred c) := by
      conv_rhs => rw [← hfst]
      rw [List.filter_map]; rfl
    rw [h2] at h1; exact h1
  · intro i c hi hc hp
    simp only [List.length_map] at hi
    have hKle : K.length ≤ l.choices.length := by
      rw [hperm.length_eq]
      have := List.length_filter_le (fun x : T × Weight => !pred x.1) (l.choices.zip l.weights)
      simp only [List.length_zip] at this; omega
    have hiw : i < l.weights.length := by rw [← hinv.1]; omega
    have hz : (l.choices.zip l.weights)[i]? = some (c, l.weights[i]) := by
      rw [List.getElem?_zip_eq_some]
      exact ⟨hc, List.getElem?_eq_getElem hiw⟩
    have := hkeep i (c, l.weights[i]) hi hz hp
    simp only [List.getElem?_map, this, Option.map_some']

/-- An instance of `erase_if_permutes_survivors` on the sample list. -/
theorem erase_if_permutes_survivors_witness :
    sampleList.Invariant ∧ sampleList.Representable ∧ sampleList.size < 4 ∧
    ∃ l' n, erase_if sampleList (fun c => c == 10) 4 = .ok (l', n) ∧
      l'.choices.Perm (sampleList.choices.filter (fun c => !(c == 10))) ∧
      ∀ i c, i < l'.choices.length → sampleList.choices[i]? = some c → (c == 10) = false →
        l'.choices[i]? = some c :=
  ⟨by decide, by decide, by decide,
    erase_if_permutes_survivors sampleList (fun c => c == 10) 4 (by decide) (by decide)
      (by decide)⟩

/-- C8 as stated fails: erasing 10 from the choices 10, 20, 30 leaves 30, 20, while
the original order of the survivors is 20, 30. -/
theorem erase_if_reorders_survivors :
    erase_if sampleList (fun c => c == 10) 4
        = .ok ({ choices := [30, 20], weights := [Weight.lit 5, Weight.lit 1], total := 6 }, 1) ∧
      sampleList.choices.filter (fun c => !(c == 10)) = [20, 30] ∧
      ([30, 20] : List Nat) ≠ [20, 30] :=
  ⟨rfl, rfl, by decide⟩


/-- A value converted to `unsigned` is below `2 ^ 32`. -/
theorem static_cast_uint32_lt (x : Int) : (static_cast uint32_t x).toNat < 2 ^ 32 := by
  simp only [static_cast, uint32_t]
  omega

/-- A valid `unsigned` weight is below `2 ^ 32`. -/
theorem IsAValidWeight_uint32_lt (v : Nat) (h : IsAValidWeight uint32_t (v : Int) = true) :
    v < 2 ^ 32 := by
  simp only [IsAValidWeight, promote, uint32_t, static_cast, is_unsigned, Bool.and_eq_true,
    decide_eq_true_eq] at h
  norm_num at h
  omega

/-- The loop of `UpdateConditions` returns, keeps the number of weights and stores only
`unsigned` values. -/
theorem UpdateConditions_loop_spec (G : NumType) (HasGet : String → Bool × Int) (size : Nat) :
    ∀ (fuel : Nat) (weights : List Weight) (index : Nat),
      index ≤ size → size - index < fuel → size < 2 ^ 32 → size ≤ weights.length →
      (∀ w ∈ weights, w.value < 2 ^ 32) →
      ∃ ws, UpdateConditions.loop G HasGet size fuel weights index = .ok ws ∧
        ws.length = weights.length ∧ ∀ w ∈ ws, w.value < 2 ^ 32 := by
  intro fuel
  induction fuel with
  | zero => intro weights index _ h; omega
  | succ f ih =>
    intro weights index hi hf h32 hsz hw
    rw [UpdateConditions.loop]
    by_cases hlt : index < size
    · have hget : weights[index]? = some weights[index] := List.getElem?_eq_getElem (by omega)
      have hnext : (index + 1) % 2 ^ 32 = index + 1 := by omega
      have hset : ∀ v : Nat, v < 2 ^ 32 →
          ∃ ws, UpdateConditions.loop G HasGet size f
              (weights.set index (weights[index].assign v)) (index + 1) = .ok ws ∧
            ws.length = weights.length ∧ ∀ w ∈ ws, w.value < 2 ^ 32 := by
        intro v hv
        obtain ⟨ws, h1, h2, h3⟩ := ih (weights.set index (weights[index].assign v)) (index + 1)
          (by omega) (by omega) h32 (by simp only [List.length_set]; omega)
          (by
            intro w hmem
            rcases List.mem_or_eq_of_mem_set hmem with h | rfl
            · exact hw w h
            · exact hv)
        exact ⟨ws, h1, by simpa using h2, h3⟩
      simp only [hlt, if_true, hget, hnext]
      split
      · exact ih weights (index + 1) (by omega) (by omega) h32 hsz hw
      · split
        · exact ih weights (index + 1) (by omega) (by omega) h32 hsz hw
        · split
          · exact hset _ (static_cast_uint32_lt _)
          · exact hset 0 (by norm_num)
    · simp only [hlt, if_false]
      exact ⟨weights, rfl, rfl, hw⟩

/-- Removing one weight lowers the sum by that weight. -/
theorem sum_values_eraseIdx (weights : List Weight) (i : Nat) (h : i < weights.length) :
    (weightValues (weights.eraseIdx i)).sum + weights[i].value = (weightValues weights).sum := by
  induction weights generalizing i with
  | nil => simp at h
  | cons w ws ih =>
    cases i with
    | zero => simp [weightValues]; omega
    | succ i =>
      have := ih i (by simpa using h)
      simp only [weightValues, List.eraseIdx_cons_succ, List.map_cons, List.sum_cons,
        List.getElem_cons_succ] at this ⊢
      omega

/-- C5: the invariant (equal lengths, cached total equal to the sum of the weights)
holds for the empty list and is preserved by `emplace_back`, `eraseAt`, `erase(first,
last)`, `erase_if`, `clear` and `UpdateConditions`. -/
theorem Invariant_is_preserved {T : Type} :
    (WeightedList.empty : WeightedList T).Invariant ∧
    ∀ l : WeightedList T, l.Invariant → l.Representable →
      (∀ weight item, (l.emplace_back weight item).Invariant) ∧
      (∀ position, position < l.size →
        ∃ l', l.eraseAt position = .ok l' ∧ l'.Invariant) ∧
      (∀ first last, first ≤ last → last ≤ l.size →
        ∃ l', l.erase first last = .ok l' ∧ l'.Invariant) ∧
      (∀ pred fuel, l.size < fuel →
        ∃ l' n, erase_if l pred fuel = .ok (l', n) ∧ l'.Invariant) ∧
      l.clear.Invariant ∧
      (∀ G HasGet fuel, l.size < fuel →
        ∃ l', l.UpdateConditions G HasGet fuel = .ok l' ∧ l'.Invariant) := by
  refine ⟨by simp [Invariant, WeightedList.empty, weightValues], ?_⟩
  intro l hinv hrep
  obtain ⟨hlen, htot⟩ := hinv
  obtain ⟨h32, hw⟩ := hrep
  have hsum := sum_values_le l.weights hw
  refine ⟨?_, ?_, ?_, ?_, ?_, ?_⟩
  · -- emplace_back
    intro weight item
    have hst : (if IsAValidWeight uint32_t (weight.value : Int) = true then weight
        else Weight.zero).value < 2 ^ 32 := by
      split
      · exact IsAValidWeight_uint32_lt _ (by assumption)
      · simp [Weight.zero]
    constructor
    · simp [emplace_back, hlen]
    · simp only [emplace_back, weightValues, List.map_append, List.sum_append, List.map_cons,
        List.map_nil, List.sum_cons, List.sum_nil, Nat.add_zero]
      simp only [weightValues] at htot hsum
      rw [htot]
      omega
  · -- eraseAt
    intro position hpos
    simp only [size] at hpos
    have hidx : position % 2 ^ 32 = position := by omega
    have hpw : position < l.weights.length := by omega
    refine ⟨{ choices := l.choices.eraseIdx position,
              weights := l.weights.eraseIdx position,
              total := (l.total + 2 ^ 64 - l.weights[position].value) % 2 ^ 64 }, ?_, ?_⟩
    · simp only [eraseAt, hidx, List.getElem?_eq_getElem hpw, hpos, if_true]
    · have h1 := sum_values_eraseIdx l.weights position hpw
      constructor
      · simp only [List.length_eraseIdx, hpos, hpw, if_true, hlen]
      · show (l.total + 2 ^ 64 - l.weights[position].value) % 2 ^ 64
          = (weightValues (l.weights.eraseIdx position)).sum
        rw [htot]
        omega
  · -- erase
    intro first last hfl hl
    simp only [size] at hl
    have hcond : first ≤ last ∧ last ≤ l.choices.length ∧ last ≤ l.weights.length :=
      ⟨hfl, hl, by omega⟩
    refine ⟨{ choices := l.choices.take first ++ l.choices.drop last,
              weights := l.weights.take first ++ l.weights.drop last,
              total := RecalculateWeight.sum (l.weights.take first ++ l.weights.drop last) },
      ?_, ?_⟩
    · simp only [WeightedList.erase, hcond, and_self, if_true]
    · constructor
      · simp only [List.length_append, List.length_take, List.length_drop, hlen]
      · show RecalculateWeight.sum _ = _
        apply RecalculateWeight_sum_exact
        · simp only [List.length_append, List.length_take, List.length_drop]; omega
        · intro w hmem
          rcases List.mem_append.1 hmem with h | h
          · exact hw w (List.mem_of_mem_take h)
          · exact hw w (List.mem_of_mem_drop h)
  · -- erase_if
    intro pred fuel hfuel
    obtain ⟨K, hres, hperm, -⟩ := erase_if_spec l pred fuel hlen h32 hfuel
    refine ⟨_, _, hres, by simp, ?_⟩
    show RecalculateWeight.sum _ = _
    apply RecalculateWeight_sum_exact
    · have := List.length_filter_le (fun x : T × Weight => !pred x.1) (l.choices.zip l.weights)
      simp only [List.length_map, hperm.length_eq]
      simp only [List.length_zip] at this
      omega
    · intro w hmem
      obtain ⟨x, hx, rfl⟩ := List.mem_map.1 hmem
      have hx' := (List.mem_filter.1 (hperm.mem_iff.1 hx)).1
      exact hw _ (List.of_mem_zip hx').2
  · simp [clear, Invariant, weightValues]
  · -- UpdateConditions
    intro G HasGet fuel hfuel
    simp only [size] at hfuel
    obtain ⟨ws, hloop, hwl, hws⟩ := UpdateConditions_loop_spec G HasGet l.choices.length fuel
      l.weights 0 (by omega) (by omega) h32 (by omega) hw
    refine ⟨RecalculateWeight { l with weights := ws }, ?_, ?_⟩
    · simp only [UpdateConditions, hloop]
    · constructor
      · simp only [RecalculateWeight, hwl, hlen]
      · simp only [RecalculateWeight]
        exact RecalculateWeight_sum_exact ws (by omega) hws

/-- An instance of `Invariant_is_preserved`: `emplace_back` on the sample list. -/
theorem Invariant_is_preserved_witness :
    sampleList.Invariant ∧ sampleList.Representable ∧
    (sampleList.emplace_back (Weight.lit 7) 40).Invariant :=
  ⟨by decide, by decide,
    ((Invariant_is_preserved.2 sampleList (by decide) (by decide)).1 (Weight.lit 7) 40)⟩

/-! ## Theorems: Condition -/

/-- C9: a Condition built by the default constructor or from a value alone has an
empty name, `HasConditions()` is false and `Value()` is the literal value; no store
is consulted, since the Condition holds none. -/
theorem literal_Condition_is_unbound (V : NumType) (value : Int) :
    (Condition.default V).Name = "" ∧
    (Condition.default V).HasConditions = false ∧
    (Condition.default V).Value = some 0 ∧
    (Condition.ofValue V value).Name = "" ∧
    (Condition.ofValue V value).HasConditions = false ∧
    (Condition.ofValue V value).Value = some value :=
  ⟨rfl, rfl, rfl, rfl, rfl, rfl⟩

/-- C10: what the source does for `Condition(value, name)`: the constructor leaves
`store` null, so for every name, the non-empty ones included, `HasConditions()` is
false and `Value()` is the stored literal `value`, not a value resolved from a store
entry. -/
theorem named_Condition_is_unbound (V : NumType) (value : Int) (name : String) :
    (Condition.ofValueName V value name).Name = name ∧
    (Condition.ofValueName V value name).HasConditions = false ∧
    (Condition.ofValueName V value name).Value = some value :=
  ⟨rfl, rfl, rfl⟩

/-- An integer value that lies in the range of `V` is unchanged by `static_cast<V>`. -/
theorem static_cast_of_InRange (V : NumType) (hV : IsIntType V) (v : Int) (hv : InRange V v) :
    static_cast V v = v := by
  obtain ⟨k, b⟩ := V
  obtain ⟨hk, hb⟩ := hV
  simp only at hk hb
  rcases hk with rfl | rfl <;> rcases hb with rfl | rfl | rfl | rfl <;>
    simp [InRange, numeric_limits_max, numeric_limits_min] at hv <;>
    simp [static_cast] <;> omega


/-! ## Theorems: Condition, updates and conversions -/

/-- The branch of `UpdateConditions(getter)` that runs with a store handle, which no
member of the class sets: it stores and returns `static_cast<V>(raw)`, which wraps
around.  The raw value -1 into a `Condition<uint32_t>` gives 4294967295 and 200 into a
`Condition<int8_t>` gives -56, while `ArithmeticCast` gives 0 and 127. -/
theorem UpdateConditions_stores_static_cast :
    (∀ (V : NumType) (value raw : Int) (name : String) (store : ConditionsStore)
        (element : Option ConditionElement),
      (Condition.UpdateConditions
          ({ value := value, name := name, store := some store, element := element } :
            Condition V) (constantGetter raw)).2 = static_cast V raw ∧
      (Condition.UpdateConditions
          ({ value := value, name := name, store := some store, element := element } :
            Condition V) (constantGetter raw)).1.value = static_cast V raw) ∧
    (boundSample uint32_t).HasConditions = true ∧
    ((boundSample uint32_t).UpdateConditions (constantGetter (-1))).2 = 4294967295 ∧
    ArithmeticCast uint32_t int64_t (-1) = some 0 ∧
    ((boundSample int8_t).UpdateConditions (constantGetter 200)).2 = -56 ∧
    ArithmeticCast int8_t int64_t 200 = some 127 := by
  refine ⟨fun V value raw name store element => ⟨rfl, rfl⟩, rfl, by decide, by decide,
    by decide, by decide⟩

/-- C12: `UpdateConditions(getter)` leaves the Condition as it is (value and name
included) and returns the current value when the Condition is unbound, and when the
getter does not have its name. -/
theorem UpdateConditions_keeps_unbound_or_missing {V : NumType} (c : Condition V)
    (HasGet : String → Bool × Int)
    (h : c.HasConditions = false ∨ (HasGet c.name).1 = false) :
    c.UpdateConditions HasGet = (c, c.value) ∧
    (c.UpdateConditions HasGet).1.value = c.value ∧
    (c.UpdateConditions HasGet).1.name = c.name ∧
    (c.UpdateConditions HasGet).2 = c.value := by
  have key : c.UpdateConditions HasGet = (c, c.value) := by
    rcases h with h | h
    · simp [Condition.UpdateConditions, h]
    · simp [Condition.UpdateConditions, h]
  simp [key]

/-- An instance of `UpdateConditions_keeps_unbound_or_missing`: a bound Condition and a
getter without its name. -/
theorem UpdateConditions_keeps_unbound_or_missing_witness :
    ((boundSample int32_t).HasConditions = false ∨
      (emptyGetter (boundSample int32_t).name).1 = false) ∧
    (boundSample int32_t).UpdateConditions emptyGetter = (boundSample int32_t, 0) :=
  ⟨Or.inr rfl, (UpdateConditions_keeps_unbound_or_missing (boundSample int32_t) emptyGetter
    (Or.inr rfl)).1⟩

/-- C13: for a bound Condition with value `v`, `UpdateConditions(getter, validator)` sets
and returns the converted raw value `static_cast<V>(raw)` (which is `raw` itself when
`raw` is in the range of an integer `V`) if the getter has the name and
`validator(raw)` holds; otherwise it keeps and returns `v` if `validator(v)` holds;
otherwise it sets and returns 0. -/
theorem UpdateConditions_validated_of_bound {V : NumType} (c : Condition V)
    (HasGet : String → Bool × Int) (validator : Int → Bool)
    (hb : c.HasConditions = true) :
    ((HasGet c.name).1 = true ∧ validator (HasGet c.name).2 = true →
      Condition.UpdateConditions.validated c HasGet validator
        = ({ c with value := static_cast V (HasGet c.name).2 },
            static_cast V (HasGet c.name).2)) ∧
    (¬ ((HasGet c.name).1 = true ∧ validator (HasGet c.name).2 = true) →
      validator c.value = true →
      Condition.UpdateConditions.validated c HasGet validator = (c, c.value)) ∧
    (¬ ((HasGet c.name).1 = true ∧ validator (HasGet c.name).2 = true) →
      validator c.value = false →
      Condition.UpdateConditions.validated c HasGet validator = ({ c with value := 0 }, 0)) ∧
    (IsIntType V → InRange V (HasGet c.name).2 →
      static_cast V (HasGet c.name).2 = (HasGet c.name).2) := by
  refine ⟨?_, ?_, ?_, fun hV hr => static_cast_of_InRange V hV _ hr⟩
  · rintro ⟨h1, h2⟩
    simp [Condition.UpdateConditions.validated, hb, h1, h2]
  · intro h hv
    have h' : ((HasGet c.name).1 && validator (HasGet c.name).2) = false := by
      cases h1 : (HasGet c.name).1 <;> cases h2 : validator (HasGet c.name).2 <;> simp_all
    simp [Condition.UpdateConditions.validated, hb, h', hv]
  · intro h hv
    have h' : ((HasGet c.name).1 && validator (HasGet c.name).2) = false := by
      cases h1 : (HasGet c.name).1 <;> cases h2 : validator (HasGet c.name).2 <;> simp_all
    simp [Condition.UpdateConditions.validated, hb, h', hv]

/-- An instance of `UpdateConditions_validated_of_bound`: the getter has the value 7,
which passes the validator `v >= 1`. -/
theorem UpdateConditions_validated_of_bound_witness :
    (boundSample int32_t).HasConditions = true ∧
    (Condition.UpdateConditions.validated (boundSample int32_t) (constantGetter 7)
      (fun v => decide (1 ≤ v))).2 = 7 :=
  ⟨rfl, by
    rw [(UpdateConditions_validated_of_bound (boundSample int32_t) (constantGetter 7)
      (fun v => decide (1 ≤ v)) rfl).1 ⟨rfl, by decide⟩]
    decide⟩

/-- C14 (amended): for an unbound Condition `UpdateConditions(getter, validator)` does
not consult the getter; when `validator(value)` holds it leaves the Condition as it is
and returns the current value, as the one-argument `UpdateConditions` does, and
otherwise it sets the value to 0 and returns 0. -/
theorem UpdateConditions_validated_of_unbound {V : NumType} (c : Condition V)
    (HasGet : String → Bool × Int) (validator : Int → Bool)
    (hu : c.HasConditions = false) :
    (validator c.value = true →
      Condition.UpdateConditions.validated c HasGet validator = (c, c.value) ∧
      Condition.UpdateConditions.validated c HasGet validator = c.UpdateConditions HasGet) ∧
    (validator c.value = false →
      Condition.UpdateConditions.validated c HasGet validator = ({ c with value := 0 }, 0)) ∧
    (∀ HasGet' : String → Bool × Int,
      Condition.UpdateConditions.validated c HasGet' validator
        = Condition.UpdateConditions.validated c HasGet validator) := by
  refine ⟨?_, ?_, ?_⟩
  · intro hv
    simp [Condition.UpdateConditions.validated, Condition.UpdateConditions, hu, hv]
  · intro hv
    simp [Condition.UpdateConditions.validated, hu, hv]
  · intro HasGet'
    simp [Condition.UpdateConditions.validated, hu]

/-- An instance of `UpdateConditions_validated_of_unbound`: the literal 3 passes the
validator `v >= 1` and is kept. -/
theorem UpdateConditions_validated_of_unbound_witness :
    (Condition.ofValue int32_t 3).HasConditions = false ∧
    Condition.UpdateConditions.validated (Condition.ofValue int32_t 3) emptyGetter
      (fun v => decide (1 ≤ v)) = (Condition.ofValue int32_t 3, 3) :=
  ⟨rfl, ((UpdateConditions_validated_of_unbound (Condition.ofValue int32_t 3) emptyGetter
    (fun v => decide (1 ≤ v)) rfl).1 (by decide)).1⟩

/-- C14 as stated fails: on the literal -5 with the validator `v >= 1` the two-argument
`UpdateConditions` sets the value to 0 and returns 0, while the one-argument
`UpdateConditions` leaves -5 and returns it. -/
theorem UpdateConditions_validated_resets_literal :
    (Condition.ofValue int32_t (-5)).HasConditions = false ∧
    (Condition.UpdateConditions.validated (Condition.ofValue int32_t (-5)) emptyGetter
      (fun v => decide (1 ≤ v))).1.value = 0 ∧
    (Condition.UpdateConditions.validated (Condition.ofValue int32_t (-5)) emptyGetter
      (fun v => decide (1 ≤ v))).2 = 0 ∧
    ((Condition.ofValue int32_t (-5)).UpdateConditions emptyGetter).2 = -5 ∧
    (Condition.ofValue int32_t (-5)).value = -5 := by
  refine ⟨rfl, by decide, by decide, by decide, rfl⟩

/-! ## Theorems: Condition, origin, conversion and resolution -/

/-- C15: if both Conditions are bound, `a.SameOrigin(b)` is true iff their names are
equal, whatever their values; if both are unbound, it is true iff their values are
equal. -/
theorem SameOrigin_of_like_Conditions {V : NumType} (a b : Condition V) :
    (a.HasConditions = true → b.HasConditions = true →
      a.SameOrigin b = some (decide (a.name = b.name))) ∧
    (a.HasConditions = false → b.HasConditions = false →
      a.SameOrigin b = some (decide (a.value = b.value))) := by
  constructor
  · intro ha _
    simp [Condition.SameOrigin, ha, Condition.Name]
  · intro ha hb
    have hs : b.store = none := by
      cases h : b.store with
      | none => rfl
      | some s => simp [Condition.HasConditions, h] at hb
    simp [Condition.SameOrigin, ha, hb, Condition.Value, hs]

/-- An instance of `SameOrigin_of_like_Conditions`: two bound Conditions with the key
"x" and different values, and two literals 3. -/
theorem SameOrigin_of_like_Conditions_witness :
    (boundSample int32_t).HasConditions = true ∧
    (boundSample int32_t).SameOrigin { boundSample int32_t with value := 9 } = some true ∧
    (Condition.ofValue int32_t 3).HasConditions = false ∧
    (Condition.ofValue int32_t 3).SameOrigin (Condition.ofValue int32_t 3) = some true :=
  ⟨rfl,
    (SameOrigin_of_like_Conditions (boundSample int32_t)
      { boundSample int32_t with value := 9 }).1 rfl rfl,
    rfl,
    (SameOrigin_of_like_Conditions (Condition.ofValue int32_t 3)
      (Condition.ofValue int32_t 3)).2 rfl rfl⟩

/-- C17: what the source does when a `Condition<V>` is constructed or assigned from a
`Condition<V2>`: the value is `static_cast<V>(c.Value())`, which wraps around.  From the
literal -1 of type `int64_t` a `Condition<uint32_t>` gets 4294967295, while
`ArithmeticCast` gives 0. -/
theorem converting_Condition_uses_static_cast :
    (∀ (V V2 : NumType) (c : Condition V2),
      (Condition.ofCondition V c).map (fun r => r.value) = c.Value.map (static_cast V)) ∧
    (∀ (V V2 : NumType) (d : Condition V) (c : Condition V2),
      (d.assign c).map (fun r => r.value) = c.Value.map (static_cast V)) ∧
    (Condition.ofValue int64_t (-1)).Value = some (-1) ∧
    (Condition.ofCondition uint32_t (Condition.ofValue int64_t (-1))).map (fun c => c.value)
      = some 4294967295 ∧
    ((Condition.default uint32_t).assign (Condition.ofValue int64_t (-1))).map
      (fun c => c.value) = some 4294967295 ∧
    ArithmeticCast uint32_t int64_t (-1) = some 0 := by
  refine ⟨?_, ?_, rfl, by decide, by decide, by decide⟩
  · intro V V2 c
    cases h : c.Value <;> simp [Condition.ofCondition, h]
  · intro V V2 d c
    cases h : c.Value <;> simp [Condition.assign, h]

/-! ## Theorems: DataNode -/

/-- An `int` made from a vector's size never exceeds the size. -/
theorem static_cast_int32_size_le (n : Nat) : static_cast int32_t (n : Int) ≤ n := by
  simp only [static_cast, int32_t]
  omega

/-- A size below `2 ^ 31` is unchanged by the conversion to `int`. -/
theorem static_cast_int32_size (n : Nat) (h : n < 2 ^ 31) : static_cast int32_t (n : Int) = n := by
  simp only [static_cast, int32_t]
  omega

/-- The loop of `CheckForKeywords` returns, whatever the index: it reads a token only at
an index that passed the bounds test. -/
theorem CheckForKeywords_loop_returns (tokens : List String) (size : Int)
    (hsize : size ≤ tokens.length) :
    ∀ (list : List String) (tokenIndex : Int),
      ∃ b, DataNode.CheckForKeywords.loop tokens size list tokenIndex = .ok b := by
  intro list
  induction list with
  | nil => intro _; exact ⟨true, rfl⟩
  | cons keyword rest ih =>
    intro tokenIndex
    rw [DataNode.CheckForKeywords.loop]
    by_cases hout : tokenIndex < 0 ∨ tokenIndex ≥ size
    · exact ⟨false, by rw [if_pos hout]⟩
    · have h1 : tokenIndex.toNat < tokens.length := by omega
      rw [if_neg hout]
      simp only [List.getElem?_eq_getElem h1]
      by_cases hk : keyword ≠ tokens[tokenIndex.toNat]
      · exact ⟨false, by simp [hk]⟩
      · simp only [hk, if_false]
        exact ih _

/-- The loop of `CheckForKeywords` from a nonnegative index `m` on a vector of fewer than
`2 ^ 31` tokens: it returns true iff every keyword equals the token at its position. -/
theorem CheckForKeywords_loop_spec (tokens : List String) (hn : tokens.length < 2 ^ 31) :
    ∀ (list : List String) (m : Nat),
      ∃ b, DataNode.CheckForKeywords.loop tokens tokens.length list (m : Int) = .ok b ∧
        (b = true ↔ ∀ j, j < list.length → tokens[m + j]? = list[j]?) := by
  intro list
  induction list with
  | nil => intro m; exact ⟨true, rfl, by simp⟩
  | cons keyword rest ih =>
    intro m
    rw [DataNode.CheckForKeywords.loop]
    by_cases hm : m < tokens.length
    · have hout : ¬ ((m : Int) < 0 ∨ (m : Int) ≥ (tokens.length : Int)) := by omega
      have hnat : (m : Int).toNat = m := by omega
      rw [if_neg hout]
      simp only [hnat, List.getElem?_eq_getElem hm]
      by_cases hk : keyword ≠ tokens[m]
      · refine ⟨false, by simp [hk], ?_⟩
        simp only [Bool.false_eq_true, false_iff, not_forall]
        refine ⟨0, by simp, ?_⟩
        simp only [Nat.add_zero, List.getElem?_eq_getElem hm, List.getElem?_cons_zero,
          Option.some.injEq]
        exact fun h => hk h.symm
      · have hk' : keyword = tokens[m] := by simpa using hk
        have hnext : static_cast int32_t ((m : Int) + 1) = ((m + 1 : Nat) : Int) := by
          simp only [static_cast, int32_t]; omega
        obtain ⟨b, hb, hiff⟩ := ih (m + 1)
        refine ⟨b, by simp only [hk, if_false, hnext]; exact hb, ?_⟩
        rw [hiff]
        constructor
        · intro h j hj
          cases j with
          | zero => simp [List.getElem?_eq_getElem hm, hk']
          | succ j =>
            have := h j (by simpa using hj)
            simpa [Nat.add_assoc, Nat.add_comm 1 j] using this
        · intro h j hj
          have := h (j + 1) (by simpa using hj)
          simpa [Nat.add_assoc, Nat.add_comm 1 j] using this
    · have hout : ((m : Int) < 0 ∨ (m : Int) ≥ (tokens.length : Int)) := by omega
      refine ⟨false, by rw [if_pos hout], ?_⟩
      simp only [Bool.false_eq_true, false_iff, not_forall]
      refine ⟨0, by simp, ?_⟩
      simp [List.getElem?_eq_none (by omega : tokens.length ≤ m)]


/-- C21: on a node with fewer than `2 ^ 31` tokens and for a non-empty keyword list,
`CheckForKeywords(index, list)` is true iff `0 <= index`, `index + len(list)` does not
pass the number of tokens, and every keyword equals the token at its position. -/
theorem CheckForKeywords_iff_match (node : DataNode) (index : Int) (list : List String)
    (hn : node.tokens.length < 2 ^ 31) (hne : list ≠ []) :
    ∃ b, node.CheckForKeywords index list = .ok b ∧
      (b = true ↔
        (0 ≤ index ∧ index + list.length ≤ node.tokens.length ∧
          ∀ j, j < list.length → node.tokens[index.toNat + j]? = list[j]?)) := by
  rw [DataNode.CheckForKeywords, static_cast_int32_size _ hn]
  by_cases hneg : index < 0
  · obtain ⟨keyword, rest, rfl⟩ := List.exists_cons_of_ne_nil hne
    refine ⟨false, ?_, ?_⟩
    · rw [DataNode.CheckForKeywords.loop, if_pos (Or.inl hneg)]
    · simp only [Bool.false_eq_true, false_iff, not_and]
      intro h; omega
  · obtain ⟨m, rfl⟩ : ∃ m : Nat, index = m := ⟨index.toNat, by omega⟩
    obtain ⟨b, hb, hiff⟩ := CheckForKeywords_loop_spec node.tokens hn list m
    refine ⟨b, hb, ?_⟩
    rw [hiff]
    have hnat : (m : Int).toNat = m := by omega
    rw [hnat]
    constructor
    · intro h
      refine ⟨by omega, ?_, h⟩
      have hpos : 0 < list.length := List.length_pos.2 hne
      have hlast := h (list.length - 1) (by omega)
      rw [List.getElem?_eq_getElem (by omega : list.length - 1 < list.length)] at hlast
      have hlt : m + (list.length - 1) < node.tokens.length := by
        by_contra hge
        rw [List.getElem?_eq_none (by omega)] at hlast
        exact absurd hlast (by simp)
      omega
    · rintro ⟨_, _, h⟩
      exact h

/-- An instance of `CheckForKeywords_iff_match` on the node of the keyword test, with
the values the test checks: true at 0, 3 and 6, false at 1, 2, 4, 5, 7, 9 and -1. -/
theorem CheckForKeywords_iff_match_witness :
    keywordNode.tokens.length < 2 ^ 31 ∧ ["alpha", "bravo", "charlie"] ≠ [] ∧
    (∃ b, keywordNode.CheckForKeywords 6 ["alpha", "bravo", "charlie"] = .ok b ∧
      (b = true ↔
        ((0 : Int) ≤ 6 ∧ (6 : Int) + ["alpha", "bravo", "charlie"].length
            ≤ keywordNode.tokens.length ∧
          ∀ j, j < ["alpha", "bravo", "charlie"].length →
            keywordNode.tokens[(6 : Int).toNat + j]? = ["alpha", "bravo", "charlie"][j]?))) ∧
    (∀ i ∈ [(0 : Int), 3, 6],
      keywordNode.CheckForKeywords i ["alpha", "bravo", "charlie"] = .ok true) ∧
    (∀ i ∈ [(1 : Int), 2, 4, 5, 7, 9, -1],
      keywordNode.CheckForKeywords i ["alpha", "bravo", "charlie"] = .ok false) :=
  ⟨by decide, by decide,
    CheckForKeywords_iff_match keywordNode 6 ["alpha", "bravo", "charlie"] (by decide)
      (by decide),
    by decide, by decide⟩

/-- C22 (amended): `CheckForKeywords` always returns, so it never reads a token at an
index outside the vector; for a negative index it returns false when the keyword list
is not empty, and for the empty list it returns true at every index. -/
theorem CheckForKeywords_is_safe (node : DataNode) (index : Int) (list : List String) :
    (∃ b, node.CheckForKeywords index list = .ok b) ∧
    (index < 0 → list ≠ [] → node.CheckForKeywords index list = .ok false) ∧
    (list = [] → node.CheckForKeywords index list = .ok true) := by
  refine ⟨?_, ?_, ?_⟩
  · exact CheckForKeywords_loop_returns node.tokens _ (static_cast_int32_size_le _) list index
  · intro hneg hne
    obtain ⟨keyword, rest, rfl⟩ := List.exists_cons_of_ne_nil hne
    rw [DataNode.CheckForKeywords, DataNode.CheckForKeywords.loop, if_pos (Or.inl hneg)]
  · rintro rfl
    rfl

/-- An instance of `CheckForKeywords_is_safe`: the index -1 of the keyword test. -/
theorem CheckForKeywords_is_safe_witness :
    (-1 : Int) < 0 ∧ ["alpha", "bravo", "charlie"] ≠ [] ∧
    keywordNode.CheckForKeywords (-1) ["alpha", "bravo", "charlie"] = .ok false :=
  ⟨by decide, by decide,
    (CheckForKeywords_is_safe keywordNode (-1) ["alpha", "bravo", "charlie"]).2.1
      (by decide) (by decide)⟩

/-- C22 as stated fails for the empty keyword list: at the index -1 the loop body never
runs and `CheckForKeywords` returns true. -/
theorem CheckForKeywords_empty_list_at_negative_index :
    (-1 : Int) < 0 ∧ keywordNode.CheckForKeywords (-1) [] = .ok true :=
  ⟨by decide, rfl⟩

/-- C23: when the token at the index is missing (the index is at or past the number of
tokens, or negative) or is not a number, `ExpectNumber` returns false, leaves `result`
as it was, and hands one of its two messages to `PrintTrace`. -/
theorem ExpectNumber_rejects {R : Type} (format : NumberFormat)
    (convert : ℚ → Except Fault R) (node : DataNode) (index : Int) (context : String)
    (result : R)
    (h : (node.tokens.length : Int) ≤ index ∨ index < 0 ∨
      ∃ token, node.tokens[index.toNat]? = some token ∧ format.IsNumber token = false) :
    ∃ message,
      node.ExpectNumber format convert index context result
        = .ok { returned := false, result := result, trace := some message } ∧
      (message = "Missing " ++ context ∨ message = "Expected number for " ++ context) := by
  have hnot : node.IsNumber format index = false := by
    simp only [DataNode.IsNumber, DataNode.tokenAt]
    rcases h with h | h | ⟨token, ht, hnum⟩
    · by_cases h0 : 0 ≤ index
      · have : node.tokens.length ≤ index.toNat := by omega
        simp [h0, List.getElem?_eq_none this]
      · simp [h0]
    · have h0 : ¬ 0 ≤ index := by omega
      simp [h0]
    · by_cases h0 : 0 ≤ index
      · simp [h0, ht, hnum]
      · simp [h0]
  rw [DataNode.ExpectNumber]
  by_cases hmiss : static_cast int32_t (node.tokens.length : Int) < static_cast int32_t (index + 1)
  · exact ⟨_, by rw [if_pos hmiss], Or.inl rfl⟩
  · exact ⟨_, by rw [if_neg hmiss]; simp [hnot], Or.inr rfl⟩

/-- An instance of `ExpectNumber_rejects` with the values of the test: past the end,
negative, and not a number. -/
theorem ExpectNumber_rejects_witness :
    ((numberNode.tokens.length : Int) ≤ 100 ∨ (100 : Int) < 0 ∨
      ∃ token, numberNode.tokens[(100 : Int).toNat]? = some token ∧
        sampleFormat.IsNumber token = false) ∧
    (∃ message,
      numberNode.ExpectNumber sampleFormat (static_cast_of_double int32_t) 100 "result" 999
        = .ok { returned := false, result := 999, trace := some message } ∧
      (message = "Missing " ++ "result" ∨ message = "Expected number for " ++ "result")) ∧
    numberNode.ExpectNumber sampleFormat (static_cast_of_double int32_t) (-100) "result" 999
      = .ok { returned := false, result := 999, trace := some "Expected number for result" } ∧
    numberNode.ExpectNumber sampleFormat (static_cast_of_double int32_t) 2 "result" 999
      = .ok { returned := false, result := 999, trace := some "Expected number for result" } :=
  ⟨Or.inl (by decide),
    ExpectNumber_rejects sampleFormat (static_cast_of_double int32_t) numberNode 100 "result"
      999 (Or.inl (by decide)),
    by decide, by decide⟩

/-- The quotient `num.tdiv den` of a rational is its truncation toward zero: the floor of
a nonnegative value and the ceiling of a negative one. -/
theorem tdiv_num_den_eq_truncation (x : ℚ) :
    Int.tdiv x.num x.den = if 0 ≤ x then ⌊x⌋ else ⌈x⌉ := by
  by_cases hx : 0 ≤ x
  · rw [if_pos hx, Rat.floor_def]
    exact Int.tdiv_eq_ediv (Rat.num_nonneg.2 hx) (Int.ofNat_nonneg _)
  · rw [if_neg hx]
    have hneg : 0 ≤ -x := by linarith
    have h1 : ⌈x⌉ = -⌊-x⌋ := by rw [Int.floor_neg, neg_neg]
    rw [h1, Rat.floor_def, Rat.neg_num, Rat.neg_den]
    have h2 : 0 ≤ -x.num := by
      have := Rat.num_nonneg.2 hneg
      rwa [Rat.neg_num] at this
    rw [← Int.tdiv_eq_ediv h2 (Int.ofNat_nonneg _), Int.neg_tdiv, neg_neg]

/-- C24 (amended): on a node with fewer than `2 ^ 31` tokens, at an index in range whose
token is a number, `ExpectNumber` converts `Value(index)`, the number the token denotes,
to the result type: when the conversion is defined it returns true and sets `result` to
the converted value, and for an integer result type that can represent the truncation
of the value toward zero the converted value is that truncation.  When the result type
cannot represent the truncated value the conversion is undefined. -/
theorem ExpectNumber_accepts {R : Type} (format : NumberFormat)
    (convert : ℚ → Except Fault R) (node : DataNode) (index : Int) (context : String)
    (result : R) (token : String)
    (hn : node.tokens.length < 2 ^ 31) (h0 : 0 ≤ index)
    (htoken : node.tokens[index.toNat]? = some token)
    (hnum : format.IsNumber token = true) :
    node.Value format index = format.Value token ∧
    (∀ converted, convert (format.Value token) = .ok converted →
      node.ExpectNumber format convert index context result
        = .ok { returned := true, result := converted, trace := none }) ∧
    (∀ fault, convert (format.Value token) = .error fault →
      node.ExpectNumber format convert index context result = .error fault) ∧
    (∀ T : NumType, IsIntType T →
      InRange T (if 0 ≤ format.Value token then ⌊format.Value token⌋
        else ⌈format.Value token⌉) →
      static_cast_of_double T (format.Value token)
        = .ok (if 0 ≤ format.Value token then ⌊format.Value token⌋
            else ⌈format.Value token⌉)) := by
  have hlt : index.toNat < node.tokens.length := by
    by_contra hge
    rw [List.getElem?_eq_none (by omega)] at htoken
    exact absurd htoken (by simp)
  have hat : node.tokenAt index = some token := by simp [DataNode.tokenAt, h0, htoken]
  have hval : node.Value format index = format.Value token := by
    simp [DataNode.Value, hat, hnum]
  have hisnum : node.IsNumber format index = true := by simp [DataNode.IsNumber, hat, hnum]
  have hmiss : ¬ (static_cast int32_t (node.tokens.length : Int)
      < static_cast int32_t (index + 1)) := by
    rw [static_cast_int32_size _ hn]
    simp only [static_cast, int32_t]
    omega
  refine ⟨hval, ?_, ?_, ?_⟩
  · intro converted hc
    rw [DataNode.ExpectNumber, if_neg hmiss]
    simp [hisnum, hval, hc]
  · intro fault hc
    rw [DataNode.ExpectNumber, if_neg hmiss]
    simp [hisnum, hval, hc]
  · intro T hT hr
    rw [← tdiv_num_den_eq_truncation] at hr ⊢
    obtain ⟨k, b⟩ := T
    obtain ⟨hk, -⟩ := hT
    simp only at hk
    rcases hk with rfl | rfl <;> simp [static_cast_of_double, hr]

/-- An instance of `ExpectNumber_accepts` with the values of the test: the token 0.25
gives 0 and the token 44 gives 44 for the result type `int`. -/
theorem ExpectNumber_accepts_witness :
    numberNode.tokens.length < 2 ^ 31 ∧ (0 : Int) ≤ 3 ∧
    numberNode.tokens[(3 : Int).toNat]? = some "0.25" ∧
    sampleFormat.IsNumber "0.25" = true ∧
    static_cast_of_double int32_t (sampleFormat.Value "0.25") = .ok 0 ∧
    numberNode.ExpectNumber sampleFormat (static_cast_of_double int32_t) 3 "result" 999
      = .ok { returned := true, result := 0, trace := none } ∧
    numberNode.ExpectNumber sampleFormat (static_cast_of_double int32_t) 4 "result" 999
      = .ok { returned := true, result := 44, trace := none } :=
  ⟨by decide, by decide, by decide, by decide, by decide,
    (ExpectNumber_accepts sampleFormat (static_cast_of_double int32_t) numberNode 3 "result"
      999 "0.25" (by decide) (by decide) (by decide) (by decide)).2.1 0 (by decide),
    by decide⟩

/-- C24 as stated fails for the token 1000000000000000 and the result type `int`: the
token is a number and the index is in range, but `int` cannot hold the truncated value,
so `static_cast<int>` does not yield it. -/
theorem ExpectNumber_cannot_truncate_large_number :
    numberNode.tokens[(5 : Int).toNat]? = some "1000000000000000" ∧
    sampleFormat.IsNumber "1000000000000000" = true ∧
    sampleFormat.Value "1000000000000000" = 1000000000000000 ∧
    ¬ InRange int32_t 1000000000000000 ∧
    numberNode.ExpectNumber sampleFormat (static_cast_of_double int32_t) 5 "result" 999
      = .error .not_representable := by
  refine ⟨by decide, by decide, by decide, by decide, by decide⟩

/-! ## Theorems: WeightedList, selection, average and edits -/

/-- The walk of `Get()` with a draw below the sum of the weights `ws` ahead, zero weights
allowed: it stops inside `ws`.  The index cannot wrap, since every step takes at least 1
from the draw. -/
theorem Get_loop_stays_inside : ∀ (ws pre : List Weight) (fuel choice : Nat),
    choice < (weightValues ws).sum → ws.length < fuel → pre.length + choice < 2 ^ 32 →
    ∃ j, j < ws.length ∧ Get.loop (pre ++ ws) fuel choice pre.length = .ok (pre.length + j) := by
  intro ws
  induction ws with
  | nil => intro pre fuel choice h; simp [weightValues] at h
  | cons w rest ih =>
    intro pre fuel choice hc hfuel hlen
    obtain ⟨f, rfl⟩ : ∃ f, fuel = f + 1 := ⟨fuel - 1, by simp at hfuel; omega⟩
    have hget := getElem_append_cons_length pre w rest
    simp only [weightValues, List.map_cons, List.sum_cons] at hc ih
    simp only [List.length_cons] at hfuel
    rw [Get.loop, hget]
    by_cases hstep : (w.value != 0 && decide (choice ≥ w.value)) = true
    · have hw : w.value ≠ 0 ∧ w.value ≤ choice := by simpa using hstep
      obtain ⟨j, hj, hloop⟩ := ih (pre ++ [w]) f (choice - w.value) (by omega) (by omega)
        (by simp only [List.length_append, List.length_singleton]; omega)
      simp only [List.append_assoc, List.singleton_append, List.length_append,
        List.length_singleton] at hloop
      have h3 : (pre.length + 1) % 2 ^ 32 = pre.length + 1 := by omega
      refine ⟨j + 1, by simp only [List.length_cons]; omega, ?_⟩
      simp only [hstep, if_true, h3, hloop]
      congr 1; omega
    · refine ⟨0, by simp, ?_⟩
      simp only [hstep, Bool.false_eq_true, if_false, Nat.add_zero]

/-- C25: on a list that satisfies the invariant, with a draw below the total weight,
`Get()` throws its runtime error when the list has no entries, returns an element of
the list when it has one, and so throws if and only if the list is empty. -/
theorem Get_throws_iff_empty {T : Type} (l : WeightedList T) (draw fuel : Nat)
    (hinv : l.Invariant) (hdraw : draw < l.total ∨ l.total = 0)
    (hfuel : l.weights.length < fuel) :
    (l.choices = [] →
      Get l draw fuel
        = .error (.runtime_error "Attempted to call Get on an empty weighted list.")) ∧
    (l.choices ≠ [] → ∃ c, c ∈ l.choices ∧ Get l draw fuel = .ok c) ∧
    ((∃ what, Get l draw fuel = .error (.runtime_error what)) ↔ l.choices = []) := by
  obtain ⟨hlen, htot⟩ := hinv
  have hempty : l.choices = [] →
      Get l draw fuel
        = .error (.runtime_error "Attempted to call Get on an empty weighted list.") := by
    intro h
    simp [Get, Get.index, h]
  have hsome : l.choices ≠ [] → ∃ c, c ∈ l.choices ∧ Get l draw fuel = .ok c := by
    intro hne
    have h1 : l.choices.isEmpty = false := by
      cases hc : l.choices with
      | nil => exact absurd hc hne
      | cons a as => rfl
    have hpos : 0 < l.choices.length := List.length_pos.2 hne
    by_cases ht : l.total = 0
    · refine ⟨l.choices[0], List.getElem_mem _, ?_⟩
      simp [Get, Get.index, h1, ht, List.getElem?_eq_getElem hpos]
    · have hd : draw < l.total := by omega
      have hmod : draw % 2 ^ 32 < (weightValues l.weights).sum := by
        have := Nat.mod_le draw (2 ^ 32)
        omega
      obtain ⟨j, hj, hloop⟩ := Get_loop_stays_inside l.weights [] fuel (draw % 2 ^ 32) hmod
        hfuel (by simp only [List.length_nil]; omega)
      simp only [List.nil_append, List.length_nil, Nat.zero_add] at hloop
      have hjc : j < l.choices.length := by omega
      refine ⟨l.choices[j], List.getElem_mem _, ?_⟩
      have hidx : Get.index l draw fuel = .ok j := by
        simp only [Get.index, h1, Bool.false_eq_true, if_false, ht]
        exact hloop
      simp [Get, hidx, List.getElem?_eq_getElem hjc]
  refine ⟨hempty, hsome, ?_⟩
  constructor
  · rintro ⟨what, hw⟩
    by_contra hne
    obtain ⟨c, -, hc⟩ := hsome hne
    rw [hc] at hw
    exact absurd hw (by simp)
  · intro h
    exact ⟨_, hempty h⟩

/-- An instance of `Get_throws_iff_empty`: the draw 3 on the sample list. -/
theorem Get_throws_iff_empty_witness :
    sampleList.Invariant ∧ ((3 : Nat) < sampleList.total ∨ sampleList.total = 0) ∧
    sampleList.weights.length < 4 ∧ sampleList.choices ≠ [] ∧
    ∃ c, c ∈ sampleList.choices ∧ Get sampleList 3 4 = .ok c :=
  ⟨by decide, by decide, by decide, by decide,
    (Get_throws_iff_empty sampleList 3 4 (by decide) (by decide) (by decide)).2.1 (by decide)⟩

/-- C26: on a non-empty list whose total weight is 0, `Get()` returns the first element
(index 0) for every draw of the random source and without running the loop. -/
theorem Get_first_when_total_zero {T : Type} (l : WeightedList T) (draw fuel : Nat)
    (hne : l.choices ≠ []) (htotal : l.total = 0) :
    Get l draw fuel = .ok (l.choices.head hne) ∧ Get.index l draw fuel = .ok 0 := by
  obtain ⟨choices, weights, total⟩ := l
  simp only at hne htotal
  subst htotal
  cases choices with
  | nil => exact absurd rfl hne
  | cons a as =>
    have hidx : Get.index ({ choices := a :: as, weights := weights, total := 0 } :
        WeightedList T) draw fuel = .ok 0 := by simp [Get.index]
    refine ⟨?_, hidx⟩
    simp [Get, hidx]

/-- An instance of `Get_first_when_total_zero`: the list of two disabled choices. -/
theorem Get_first_when_total_zero_witness :
    disabledList.choices ≠ [] ∧ disabledList.total = 0 ∧ Get disabledList 7 0 = .ok 10 :=
  ⟨by decide, rfl, (Get_first_when_total_zero disabledList 7 0 (by decide) rfl).1⟩

/-- C27: `Average` is wrong for a projection with negative values.  On the list with the
single weight 3, which satisfies the invariant, and the projection that is -1
everywhere, the weighted mean is `(-1 * 3) / 3 = -1`, but `Average` returns 1431655764
for the result type `int` and 6148914691236517204 for `int64_t`: the product is formed
with an `unsigned` weight and the sum is divided as a `std::size_t`.  With a total
weight of 0 it returns 0, as claimed. -/
theorem Average_of_negative_projection :
    tripleList.Invariant ∧
    tripleList.Average int32_t (fun _ => -1) 2 = .ok 1431655764 ∧
    Int.tdiv (-1 * 3) 3 = -1 ∧
    tripleList.Average int64_t (fun _ => -1) 2 = .ok 6148914691236517204 ∧
    (∀ (T : Type) (l : WeightedList T) (R : NumType) (fn : T → Int) (fuel : Nat),
      ({ l with total := 0 } : WeightedList T).Average R fn fuel = .ok 0) := by
  refine ⟨by decide, by decide, by decide, by decide, ?_⟩
  intro T l R fn fuel
  simp [Average, TotalWeight]

/-- The weights between two positions and the weights outside them add up to all weights. -/
theorem sum_values_take_drop (weights : List Weight) (a b : Nat) (hab : a ≤ b) :
    (weightValues (weights.take a ++ weights.drop b)).sum
      + (weightValues ((weights.drop a).take (b - a))).sum = (weightValues weights).sum := by
  have h1 : weights = weights.take a ++ ((weights.drop a).take (b - a) ++ weights.drop b) := by
    have h2 : (weights.drop a).drop (b - a) = weights.drop b := by
      rw [List.drop_drop]
      congr 1
      omega
    rw [← h2, List.take_append_drop, List.take_append_drop]
  have h3 : (weightValues weights).sum
      = (weightValues (weights.take a ++ ((weights.drop a).take (b - a) ++ weights.drop b))).sum := by
    rw [← h1]
  rw [h3]
  simp only [weightValues, List.map_append, List.sum_append]
  omega

/-- C28: on a list that satisfies the invariant, `emplace_back(w, args)` appends exactly
one element at the end (the earlier choices and weights are unchanged and the size grows
by 1), stores `w` as its weight if `IsAValidWeight(w)` and a zero weight otherwise, and
raises the total weight by exactly the stored weight. -/
theorem emplace_back_appends_one {T : Type} (l : WeightedList T) (w : Weight) (item : T)
    (hinv : l.Invariant) (hrep : l.Representable) :
    (l.emplace_back w item).choices = l.choices ++ [item] ∧
    (l.emplace_back w item).size = l.size + 1 ∧
    (∃ stored, (l.emplace_back w item).weights = l.weights ++ [stored] ∧
      (IsAValidWeight uint32_t (w.value : Int) = true → stored = w) ∧
      (IsAValidWeight uint32_t (w.value : Int) = false → stored.value = 0) ∧
      (l.emplace_back w item).TotalWeight = l.TotalWeight + stored.value) := by
  obtain ⟨hlen, htot⟩ := hinv
  obtain ⟨h32, hw⟩ := hrep
  have hsum := sum_values_le l.weights hw
  refine ⟨rfl, by simp [emplace_back, size], ?_⟩
  refine ⟨if IsAValidWeight uint32_t (w.value : Int) = true then w else Weight.zero, rfl, ?_, ?_, ?_⟩
  · intro h; simp [h]
  · intro h; simp [h, Weight.zero]
  · have hst : (if IsAValidWeight uint32_t (w.value : Int) = true then w
        else Weight.zero).value < 2 ^ 32 := by
      split
      · exact IsAValidWeight_uint32_lt _ (by assumption)
      · simp [Weight.zero]
    simp only [emplace_back, TotalWeight]
    rw [htot]
    omega

/-- An instance of `emplace_back_appends_one`: the weight 7 appended to the sample list. -/
theorem emplace_back_appends_one_witness :
    sampleList.Invariant ∧ sampleList.Representable ∧
    (sampleList.emplace_back (Weight.lit 7) 40).choices = sampleList.choices ++ [40] ∧
    (sampleList.emplace_back (Weight.lit 7) 40).size = sampleList.size + 1 ∧
    (sampleList.emplace_back (Weight.lit 7) 40).TotalWeight = 15 :=
  ⟨by decide, by decide,
    (emplace_back_appends_one sampleList (Weight.lit 7) 40 (by decide) (by decide)).1,
    (emplace_back_appends_one sampleList (Weight.lit 7) 40 (by decide) (by decide)).2.1,
    by decide⟩

/-- C29: on a list that satisfies the invariant, `eraseAt(i)` for a valid position and
`erase(a, b)` for a valid range remove the same positions from `choices` and from
`weights`: both sequences are the originals with position `i` (positions `a` to `b - 1`)
deleted and the rest in order, and the total weight has gone down by the sum of the
removed weights. -/
theorem eraseAt_and_erase_remove_same_positions {T : Type} (l : WeightedList T)
    (hinv : l.Invariant) (hrep : l.Representable) :
    (∀ i, i < l.size →
      ∃ l' w, l.eraseAt i = .ok l' ∧ l.weights[i]? = some w ∧
        l'.choices = l.choices.eraseIdx i ∧ l'.weights = l.weights.eraseIdx i ∧
        l'.TotalWeight + w.value = l.TotalWeight) ∧
    (∀ a b, a ≤ b → b ≤ l.size →
      ∃ l', l.erase a b = .ok l' ∧
        l'.choices = l.choices.take a ++ l.choices.drop b ∧
        l'.weights = l.weights.take a ++ l.weights.drop b ∧
        l'.TotalWeight + (weightValues ((l.weights.drop a).take (b - a))).sum
          = l.TotalWeight) := by
  obtain ⟨hlen, htot⟩ := hinv
  obtain ⟨h32, hw⟩ := hrep
  have hsum := sum_values_le l.weights hw
  constructor
  · intro i hi
    simp only [size] at hi
    have hidx : i % 2 ^ 32 = i := by omega
    have hpw : i < l.weights.length := by omega
    refine ⟨{ choices := l.choices.eraseIdx i,
              weights := l.weights.eraseIdx i,
              total := (l.total + 2 ^ 64 - l.weights[i].value) % 2 ^ 64 }, l.weights[i],
      ?_, List.getElem?_eq_getElem hpw, rfl, rfl, ?_⟩
    · simp only [eraseAt, hidx, List.getElem?_eq_getElem hpw, hi, if_true]
    · have h1 := sum_values_eraseIdx l.weights i hpw
      simp only [TotalWeight]
      rw [htot]
      omega
  · intro a b hab hb
    simp only [size] at hb
    have hcond : a ≤ b ∧ b ≤ l.choices.length ∧ b ≤ l.weights.length := ⟨hab, hb, by omega⟩
    refine ⟨{ choices := l.choices.take a ++ l.choices.drop b,
              weights := l.weights.take a ++ l.weights.drop b,
              total := RecalculateWeight.sum (l.weights.take a ++ l.weights.drop b) },
      ?_, rfl, rfl, ?_⟩
    · simp only [WeightedList.erase, hcond, and_self, if_true]
    · have hexact : RecalculateWeight.sum (l.weights.take a ++ l.weights.drop b)
          = (weightValues (l.weights.take a ++ l.weights.drop b)).sum := by
        apply RecalculateWeight_sum_exact
        · simp only [List.length_append, List.length_take, List.length_drop]; omega
        · intro w hmem
          rcases List.mem_append.1 hmem with h | h
          · exact hw w (List.mem_of_mem_take h)
          · exact hw w (List.mem_of_mem_drop h)
      simp only [TotalWeight]
      rw [hexact, htot]
      exact sum_values_take_drop l.weights a b hab

/-- An instance of `eraseAt_and_erase_remove_same_positions`: position 1 of the sample
list. -/
theorem eraseAt_and_erase_remove_same_positions_witness :
    sampleList.Invariant ∧ sampleList.Representable ∧
    (∃ l' w, sampleList.eraseAt 1 = .ok l' ∧ sampleList.weights[1]? = some w ∧
      l'.choices = sampleList.choices.eraseIdx 1 ∧ l'.weights = sampleList.weights.eraseIdx 1 ∧
      l'.TotalWeight + w.value = sampleList.TotalWeight) ∧
    (∃ l', sampleList.erase 1 3 = .ok l' ∧
      l'.choices = sampleList.choices.take 1 ++ sampleList.choices.drop 3 ∧
      l'.weights = sampleList.weights.take 1 ++ sampleList.weights.drop 3 ∧
      l'.TotalWeight + (weightValues ((sampleList.weights.drop 1).take (3 - 1))).sum
        = sampleList.TotalWeight) :=
  ⟨by decide, by decide,
    (eraseAt_and_erase_remove_same_positions sampleList (by decide) (by decide)).1 1
      (by decide),
    (eraseAt_and_erase_remove_same_positions sampleList (by decide) (by decide)).2 1 3
      (by decide) (by decide)⟩

/-- Writing at the position just after `A`. -/
theorem set_append_cons_length {α : Type} (A : List α) (b b' : α) (C : List α) :
    (A ++ b :: C).set A.length b' = A ++ b' :: C := by
  induction A with
  | nil => rfl
  | cons a A ih => simp only [List.cons_append, List.length_cons, List.set_cons_succ, ih]

/-- The loop of `UpdateConditions`, started behind the weights `pre`, rewrites each of the
remaining weights on its own and leaves `pre` alone. -/
theorem UpdateConditions_loop_map (G : NumType) (HasGet : String → Bool × Int) (size : Nat) :
    ∀ (rest pre : List Weight) (fuel : Nat),
      size = pre.length + rest.length → rest.length < fuel → size < 2 ^ 32 →
      UpdateConditions.loop G HasGet size fuel (pre ++ rest) pre.length
        = .ok (pre ++ rest.map (UpdateConditions.updated G HasGet)) := by
  intro rest
  induction rest with
  | nil =>
    intro pre fuel hsize hfuel _
    obtain ⟨f, rfl⟩ : ∃ f, fuel = f + 1 := ⟨fuel - 1, by omega⟩
    simp only [List.length_nil, Nat.add_zero] at hsize
    rw [UpdateConditions.loop]
    simp [hsize]
  | cons w rest ih =>
    intro pre fuel hsize hfuel h32
    obtain ⟨f, rfl⟩ : ∃ f, fuel = f + 1 := ⟨fuel - 1, by simp at hfuel; omega⟩
    simp only [List.length_cons] at hsize hfuel
    have hlt : pre.length < size := by omega
    have hnext : (pre.length + 1) % 2 ^ 32 = (pre ++ [w]).length := by
      simp only [List.length_append, List.length_singleton]; omega
    have hstep : ∀ w' : Weight,
        UpdateConditions.loop G HasGet size f (pre ++ w' :: rest) ((pre.length + 1) % 2 ^ 32)
          = .ok (pre ++ w' :: rest.map (UpdateConditions.updated G HasGet)) := by
      intro w'
      have hnext' : (pre.length + 1) % 2 ^ 32 = (pre ++ [w']).length := by
        simp only [List.length_append, List.length_singleton]; omega
      have := ih (pre ++ [w']) f
        (by simp only [List.length_append, List.length_singleton]; omega) (by omega) h32
      rw [hnext']
      simpa only [List.append_assoc, List.singleton_append] using this
    rw [UpdateConditions.loop]
    simp only [hlt, if_true, getElem_append_cons_length, set_append_cons_length, List.map_cons]
    by_cases hl : w.WasLValue = true
    · by_cases hg : (HasGet w.Key).1 = true
      · by_cases hv : IsAValidWeight G (HasGet w.Key).2 = true
        · simp only [hl, hg, hv, Bool.not_true, Bool.false_eq_true, if_false, if_true,
            UpdateConditions.updated, Bool.and_self]
          exact hstep _
        · simp only [hl, hg, hv, Bool.not_true, Bool.false_eq_true, if_false, if_true,
            UpdateConditions.updated, Bool.and_self]
          exact hstep _
      · have hg' : (HasGet w.Key).1 = false := by simpa using hg
        simp only [hl, hg', Bool.not_true, Bool.not_false, Bool.false_eq_true, if_false,
          if_true, UpdateConditions.updated, Bool.and_false]
        exact hstep _
    · have hl' : w.WasLValue = false := by simpa using hl
      simp only [hl', Bool.not_false, if_true, UpdateConditions.updated, Bool.false_and,
        Bool.false_eq_true, if_false]
      exact hstep _

/-- The loop of `All`, started behind equally long parts of both vectors, is the
conjunction of the callable over the remaining pairs. -/
theorem All_loop_spec {T : Type} (c : Weight → T → Bool) :
    ∀ (ws : List Weight) (cs : List T) (pw : List Weight) (pc : List T) (fuel : Nat),
      ws.length = cs.length → pw.length = pc.length → ws.length < fuel →
      pc.length + cs.length < 2 ^ 32 →
      All.loop c (pc ++ cs) (pw ++ ws) fuel pc.length
        = .ok ((ws.zip cs).all (fun pair => c pair.1 pair.2)) := by
  intro ws
  induction ws with
  | nil =>
    intro cs pw pc fuel hlen _ hfuel _
    obtain ⟨f, rfl⟩ : ∃ f, fuel = f + 1 := ⟨fuel - 1, by simp at hfuel; omega⟩
    have hcs : cs = [] := List.length_eq_zero.1 (by simpa using hlen.symm)
    subst hcs
    rw [All.loop]
    simp
  | cons w ws ih =>
    intro cs pw pc fuel hlen hpre hfuel h32
    obtain ⟨f, rfl⟩ : ∃ f, fuel = f + 1 := ⟨fuel - 1, by simp at hfuel; omega⟩
    cases cs with
    | nil => simp at hlen
    | cons x cs =>
      simp only [List.length_cons] at hlen hfuel h32
      have hw : (pw ++ w :: ws)[pc.length]? = some w := by
        rw [← hpre]; exact getElem_append_cons_length pw w ws
      have hx : (pc ++ x :: cs)[pc.length]? = some x := getElem_append_cons_length pc x cs
      have hlt : pc.length < (pc ++ x :: cs).length := by
        simp only [List.length_append, List.length_cons]; omega
      have hnext : (pc.length + 1) % 2 ^ 32 = (pc ++ [x]).length := by
        simp only [List.length_append, List.length_singleton]; omega
      have hrec := ih cs (pw ++ [w]) (pc ++ [x]) f (by omega)
        (by simp only [List.length_append, List.length_singleton]; omega) (by omega)
        (by simp only [List.length_append, List.length_singleton]; omega)
      simp only [List.append_assoc, List.singleton_append] at hrec
      rw [All.loop, if_pos hlt, hw, hx]
      simp only [hnext, hrec, List.zip_cons_cons, List.all_cons]
      cases hc : c w x <;> simp [hc]

/-- The loop of `Any`, started behind equally long parts of both vectors, is the
disjunction of the callable over the remaining pairs that come before the first weight
of 0. -/
theorem Any_loop_spec {T : Type} (c : Weight → T → Bool) :
    ∀ (ws : List Weight) (cs : List T) (pw : List Weight) (pc : List T) (fuel : Nat),
      ws.length = cs.length → pw.length = pc.length → ws.length < fuel →
      pc.length + cs.length < 2 ^ 32 →
      Any.loop c (pc ++ cs) (pw ++ ws) fuel pc.length
        = .ok (((ws.zip cs).takeWhile (fun pair => pair.1.value != 0)).any
            (fun pair => c pair.1 pair.2)) := by
  intro ws
  induction ws with
  | nil =>
    intro cs pw pc fuel hlen _ hfuel _
    obtain ⟨f, rfl⟩ : ∃ f, fuel = f + 1 := ⟨fuel - 1, by simp at hfuel; omega⟩
    have hcs : cs = [] := List.length_eq_zero.1 (by simpa using hlen.symm)
    subst hcs
    rw [Any.loop]
    simp
  | cons w ws ih =>
    intro cs pw pc fuel hlen hpre hfuel h32
    obtain ⟨f, rfl⟩ : ∃ f, fuel = f + 1 := ⟨fuel - 1, by simp at hfuel; omega⟩
    cases cs with
    | nil => simp at hlen
    | cons x cs =>
      simp only [List.length_cons] at hlen hfuel h32
      have hw : (pw ++ w :: ws)[pc.length]? = some w := by
        rw [← hpre]; exact getElem_append_cons_length pw w ws
      have hx : (pc ++ x :: cs)[pc.length]? = some x := getElem_append_cons_length pc x cs
      have hlt : pc.length < (pc ++ x :: cs).length := by
        simp only [List.length_append, List.length_cons]; omega
      have hnext : (pc.length + 1) % 2 ^ 32 = (pc ++ [x]).length := by
        simp only [List.length_append, List.length_singleton]; omega
      have hrec := ih cs (pw ++ [w]) (pc ++ [x]) f (by omega)
        (by simp only [List.length_append, List.length_singleton]; omega) (by omega)
        (by simp only [List.length_append, List.length_singleton]; omega)
      simp only [List.append_assoc, List.singleton_append] at hrec
      rw [Any.loop, if_pos hlt, hw, hx]
      simp only [hnext, hrec, List.zip_cons_cons, List.takeWhile_cons]
      cases hz : (w.value != 0) <;> cases hc : c w x <;> simp [hz, hc]

/-- C32: on a list whose two vectors have the same length, `All(c)` is true iff `c` holds
for every (weight, element) pair, pairs with a weight of 0 included, and `Any(c)` is
true iff `c` holds for some pair that comes before the first weight of 0: the pairs from
the first weight of 0 on are not considered. -/
theorem All_and_Any_quantify {T : Type} (l : WeightedList T) (c : Weight → T → Bool)
    (fuel : Nat) (hlen : l.choices.length = l.weights.length) (h32 : l.size < 2 ^ 32)
    (hfuel : l.size < fuel) :
    (∃ all, l.All c fuel = .ok all ∧
      (all = true ↔ ∀ pair ∈ l.weights.zip l.choices, c pair.1 pair.2 = true)) ∧
    (∃ any, l.Any c fuel = .ok any ∧
      (any = true ↔
        ∃ pair ∈ (l.weights.zip l.choices).takeWhile (fun pair => pair.1.value != 0),
          c pair.1 pair.2 = true)) := by
  simp only [size] at h32 hfuel
  have hAll := All_loop_spec c l.weights l.choices [] [] fuel hlen.symm rfl (by omega)
    (by simp only [List.length_nil]; omega)
  have hAny := Any_loop_spec c l.weights l.choices [] [] fuel hlen.symm rfl (by omega)
    (by simp only [List.length_nil]; omega)
  simp only [List.nil_append, List.length_nil] at hAll hAny
  refine ⟨⟨_, hAll, ?_⟩, ⟨_, hAny, ?_⟩⟩
  · simp only [List.all_eq_true]
  · simp only [List.any_eq_true]

/-- An instance of `All_and_Any_quantify` on the list whose second weight is 0: the
callable that accepts the element 30 holds for the third pair only, which `Any` does not
reach, and the callable that accepts every weight below 5 fails on the third pair, which
`All` does reach. -/
theorem All_and_Any_quantify_witness :
    gappedList.choices.length = gappedList.weights.length ∧ gappedList.size < 2 ^ 32 ∧
    gappedList.size < 4 ∧
    gappedList.Any (fun _ choice => choice == 30) 4 = .ok false ∧
    gappedList.Any (fun _ choice => choice == 10) 4 = .ok true ∧
    gappedList.All (fun weight _ => decide (weight.value < 5)) 4 = .ok false ∧
    (∃ all, gappedList.All (fun weight _ => decide (weight.value < 9)) 4 = .ok all ∧
      (all = true ↔ ∀ pair ∈ gappedList.weights.zip gappedList.choices,
        decide (pair.1.value < 9) = true)) :=
  ⟨by decide, by decide, by decide, by decide, by decide, by decide,
    (All_and_Any_quantify gappedList (fun weight _ => decide (weight.value < 9)) 4
      (by decide) (by decide) (by decide)).1⟩

/-- C31: on a list that satisfies the invariant, `UpdateConditions(getter)` changes only
bound weights whose key the getter has: the choices are unchanged, the number of
weights is unchanged, every literal weight (not `WasLValue`) is unchanged, and every
bound weight whose key the getter does not have is unchanged. -/
theorem UpdateConditions_changes_only_found_weights {T : Type} (l : WeightedList T)
    (G : NumType) (HasGet : String → Bool × Int) (fuel : Nat)
    (hinv : l.Invariant) (hrep : l.Representable) (hfuel : l.size < fuel) :
    ∃ l', l.UpdateConditions G HasGet fuel = .ok l' ∧
      l'.choices = l.choices ∧
      l'.weights.length = l.weights.length ∧
      ∀ (i : Nat) (w : Weight), l.weights[i]? = some w →
        (w.WasLValue = false ∨ (HasGet w.Key).1 = false) → l'.weights[i]? = some w := by
  obtain ⟨hlen, -⟩ := hinv
  obtain ⟨h32, -⟩ := hrep
  simp only [size] at hfuel
  have hloop := UpdateConditions_loop_map G HasGet l.choices.length l.weights [] fuel
    (by simp only [List.length_nil]; omega) (by omega) h32
  simp only [List.nil_append, List.length_nil] at hloop
  refine ⟨RecalculateWeight
    { l with weights := l.weights.map (UpdateConditions.updated G HasGet) }, ?_, rfl, ?_, ?_⟩
  · simp only [UpdateConditions, hloop]
  · simp only [RecalculateWeight, List.length_map]
  · intro i w hi hkeep
    have hsame : UpdateConditions.updated G HasGet w = w := by
      rcases hkeep with h | h <;> simp [UpdateConditions.updated, h]
    simp only [RecalculateWeight, List.getElem?_map, hi, Option.map_some', hsame]

/-- An instance of `UpdateConditions_changes_only_found_weights`: the literal first
weight of the list whose second weight is bound to "x" is kept. -/
theorem UpdateConditions_changes_only_found_weights_witness :
    keyedList.Invariant ∧ keyedList.Representable ∧ keyedList.size < 3 ∧
    ∃ l', keyedList.UpdateConditions int64_t (constantGetter 7) 3 = .ok l' ∧
      l'.choices = keyedList.choices ∧ l'.weights[0]? = some (Weight.lit 2) := by
  refine ⟨by decide, by decide, by decide, ?_⟩
  obtain ⟨l', h1, h2, -, h4⟩ := UpdateConditions_changes_only_found_weights keyedList int64_t
    (constantGetter 7) 3 (by decide) (by decide) (by decide)
  exact ⟨l', h1, h2, h4 0 (Weight.lit 2) rfl (Or.inl rfl)⟩

/-- C33: `IsAValidWeight` rejects the largest value of the default weight type
`unsigned`: 4294967295 is at least 1 and is finite, as the comment on line 63 requires of
a weight, but `4294967295 + 1` is computed in `unsigned` and is 0, so `t + 1 > t` is
false.  `emplace_back(4294967295u, ...)` therefore stores the weight 0.  For every other
value of the type, `IsAValidWeight(w)` is true iff `w >= 1`. -/
theorem IsAValidWeight_rejects_unsigned_max :
    InRange uint32_t 4294967295 ∧ (1 : Int) ≤ 4294967295 ∧
    static_cast (promote uint32_t) (4294967295 + 1) = 0 ∧
    IsAValidWeight uint32_t 4294967295 = false ∧
    ((WeightedList.empty : WeightedList Nat).emplace_back (Weight.lit 4294967295) 10).weights
      = [Weight.zero] ∧
    ((WeightedList.empty : WeightedList Nat).emplace_back (Weight.lit 4294967295) 10).total
      = 0 ∧
    (∀ w : Fin 4294967295, IsAValidWeight uint32_t (w.val : Int) = decide (1 ≤ w.val)) := by
  refine ⟨by decide, by decide, by decide, by decide, by decide, by decide, ?_⟩
  intro w
  have hw := w.isLt
  simp only [IsAValidWeight, promote, uint32_t, static_cast, is_unsigned]
  have h1 : (decide ((w.val : Int) ≥ 1)) = decide (1 ≤ w.val) := by
    by_cases h : 1 ≤ w.val
    · simp [h]
    · simp [h]
  have h2 : decide ((if true = true then ((w.val : Int) + 1) % 2 ^ (8 * 4) else (w.val : Int) + 1)
      > (w.val : Int)) = true := by
    simp only [if_true, decide_eq_true_eq]
    omega
  simp only [Nat.lt_irrefl, if_false] at h2 ⊢
  rw [h1, h2, Bool.and_true]

/-- C39: on a non-empty list that satisfies the invariant, with a total weight above 0,
zero weights allowed anywhere, and a draw in `[0, total)`, the walk of `Get()` ends at an
index below the size of the list: the weight and the choice at that index exist, and
`Get()` returns that choice. -/
theorem Get_walk_ends_in_bounds {T : Type} (l : WeightedList T) (draw fuel : Nat)
    (hne : l.choices ≠ []) (hinv : l.Invariant) (hpos : 0 < l.total)
    (hdraw : draw < l.total) (hfuel : l.weights.length < fuel) :
    ∃ index, Get.index l draw fuel = .ok index ∧ index < l.size ∧
      (∃ w, l.weights[index]? = some w) ∧
      ∃ choice, l.choices[index]? = some choice ∧ Get l draw fuel = .ok choice := by
  obtain ⟨hlen, htot⟩ := hinv
  have hempty : l.choices.isEmpty = false := by
    cases hc : l.choices with
    | nil => exact absurd hc hne
    | cons a as => rfl
  have hmod : draw % 2 ^ 32 < (weightValues l.weights).sum := by
    have := Nat.mod_le draw (2 ^ 32)
    omega
  obtain ⟨j, hj, hloop⟩ := Get_loop_stays_inside l.weights [] fuel (draw % 2 ^ 32) hmod
    hfuel (by simp only [List.length_nil]; omega)
  simp only [List.nil_append, List.length_nil, Nat.zero_add] at hloop
  have hjc : j < l.choices.length := by omega
  have hidx : Get.index l draw fuel = .ok j := by
    simp only [Get.index, hempty, Bool.false_eq_true, if_false, Nat.pos_iff_ne_zero.1 hpos]
    exact hloop
  refine ⟨j, hidx, hjc, ⟨l.weights[j], List.getElem?_eq_getElem hj⟩, l.choices[j],
    List.getElem?_eq_getElem hjc, ?_⟩
  simp [Get, hidx, List.getElem?_eq_getElem hjc]

/-- An instance of `Get_walk_ends_in_bounds` on the list whose second weight is 0: the
draw 6 ends the walk at index 1. -/
theorem Get_walk_ends_in_bounds_witness :
    gappedList.choices ≠ [] ∧ gappedList.Invariant ∧ 0 < gappedList.total ∧
    6 < gappedList.total ∧ gappedList.weights.length < 4 ∧
    Get.index gappedList 6 4 = .ok 1 ∧
    ∃ index, Get.index gappedList 6 4 = .ok index ∧ index < gappedList.size ∧
      (∃ w, gappedList.weights[index]? = some w) ∧
      ∃ choice, gappedList.choices[index]? = some choice ∧
        Get gappedList 6 4 = .ok choice :=
  ⟨by decide, by decide, by decide, by decide, by decide, by decide,
    Get_walk_ends_in_bounds gappedList 6 4 (by decide) (by decide) (by decide) (by decide)
      (by decide)⟩

/-! ## Theorems: Condition, repeated update -/

/-- C40: `UpdateConditions(getter, validator)` is idempotent: applied to its own outcome
with the same getter and validator, it leaves the Condition (value, name and store
handle) as the first application left it and returns the same value. -/
theorem UpdateConditions_validated_idempotent {V : NumType} (c : Condition V)
    (HasGet : String → Bool × Int) (validator : Int → Bool) :
    Condition.UpdateConditions.validated
        (Condition.UpdateConditions.validated c HasGet validator).1 HasGet validator
      = Condition.UpdateConditions.validated c HasGet validator := by
  simp only [Condition.UpdateConditions.validated, Condition.HasConditions]
  by_cases hb : c.store.isSome = true
  · by_cases hg : ((HasGet c.name).1 && validator (HasGet c.name).2) = true
    · simp [hb, hg]
    · by_cases hv : validator c.value = true
      · simp [hb, hg, hv]
      · by_cases h0 : validator 0 = true <;> simp [hb, hg, hv, h0]
  · by_cases hv : validator c.value = true
    · simp [hb, hv]
    · by_cases h0 : validator 0 = true <;> simp [hb, hv, h0]

/-! ## Theorems: ArithmeticCast, boolean destination and HigherMaxValue -/

/-- C37: for every integer or boolean source type and every value `v`,
`ArithmeticCast<bool>(v)` resolves to the overload "Cast to bool from integer" and is
false (0) iff `v = 0`: it is true (1) for every other `v`, negative values and the
minimum and maximum of the type included. -/
theorem ArithmeticCast_bool_of_integer (From : NumType)
    (hFrom : IsIntType From ∨ From = bool_t) (v : Int) :
    ArithmeticCast bool_t From v = some (if v = 0 then 0 else 1) ∧
    (ArithmeticCast bool_t From v = some 0 ↔ v = 0) ∧
    (ArithmeticCast bool_t From v = some 1 ↔ v ≠ 0) := by
  have hfloat : is_floating_point From = false := by
    rcases hFrom with ⟨hk | hk, -⟩ | rfl
    · simp [is_floating_point, hk]
    · simp [is_floating_point, hk]
    · rfl
  have hcast : ArithmeticCast bool_t From v = some (if v = 0 then 0 else 1) := by
    simp [ArithmeticCast, ArithmeticCast.overloads, IsBool, bool_t, is_arithmetic, hfloat,
      ArithmeticCast.boolFromInteger, static_cast]
  refine ⟨hcast, ?_, ?_⟩
  · rw [hcast]
    by_cases h : v = 0 <;> simp [h]
  · rw [hcast]
    by_cases h : v = 0 <;> simp [h]

/-- An instance of `ArithmeticCast_bool_of_integer` with the values of the test: the
minimum of `int64_t` is true, and so are 1, the maximum and `true`; 0 and `false` are
false. -/
theorem ArithmeticCast_bool_of_integer_witness :
    (IsIntType int64_t ∨ int64_t = bool_t) ∧
    ArithmeticCast bool_t int64_t (numeric_limits_min int64_t) = some 1 ∧
    ArithmeticCast bool_t int64_t 1 = some 1 ∧
    ArithmeticCast bool_t int64_t (numeric_limits_max int64_t) = some 1 ∧
    ArithmeticCast bool_t int64_t 0 = some 0 ∧
    ArithmeticCast bool_t bool_t 1 = some 1 ∧ ArithmeticCast bool_t bool_t 0 = some 0 :=
  ⟨Or.inl (by decide),
    (ArithmeticCast_bool_of_integer int64_t (Or.inl (by decide))
      (numeric_limits_min int64_t)).2.2.2 (by decide),
    by decide, by decide, by decide, by decide, by decide⟩

/-- C38: for `A` and `B` among `bool` and the signed and unsigned integer types of 8, 16,
32 and 64 bits, `HigherMaxValue<A, B>` is true iff the maximum of `A` is greater than the
maximum of `B`; for equal widths it is true for (unsigned, signed) and false for
(signed, unsigned), and it is false for (A, A). -/
theorem HigherMaxValue_iff_greater_max (A B : NumType)
    (hA : IsIntType A ∨ A = bool_t) (hB : IsIntType B ∨ B = bool_t) :
    (HigherMaxValue A B = true ↔ numeric_limits_max A > numeric_limits_max B) ∧
    (A.kind = .unsignedInt → B.kind = .signedInt → A.bytes = B.bytes →
      HigherMaxValue A B = true ∧ HigherMaxValue B A = false) ∧
    HigherMaxValue A A = false := by
  have hkinds : ∀ T : NumType, (IsIntType T ∨ T = bool_t) →
      T = int8_t ∨ T = int16_t ∨ T = int32_t ∨ T = int64_t ∨
      T = uint8_t ∨ T = uint16_t ∨ T = uint32_t ∨ T = uint64_t ∨ T = bool_t := by
    rintro ⟨k, b⟩ (⟨hk, hb⟩ | h)
    · simp only at hk hb
      rcases hk with rfl | rfl <;> rcases hb with rfl | rfl | rfl | rfl <;> decide
    · simp [h]
  rcases hkinds A hA with rfl | rfl | rfl | rfl | rfl | rfl | rfl | rfl | rfl <;>
    rcases hkinds B hB with rfl | rfl | rfl | rfl | rfl | rfl | rfl | rfl | rfl <;>
    decide

/-- An instance of `HigherMaxValue_iff_greater_max`: `uint32_t` against `int32_t`. -/
theorem HigherMaxValue_iff_greater_max_witness :
    (IsIntType uint32_t ∨ uint32_t = bool_t) ∧ (IsIntType int32_t ∨ int32_t = bool_t) ∧
    HigherMaxValue uint32_t int32_t = true ∧ HigherMaxValue int32_t uint32_t = false ∧
    (HigherMaxValue uint32_t int32_t = true
      ↔ numeric_limits_max uint32_t > numeric_limits_max int32_t) :=
  ⟨Or.inl (by decide), Or.inl (by decide), by decide, by decide,
    (HigherMaxValue_iff_greater_max uint32_t int32_t (Or.inl (by decide))
      (Or.inl (by decide))).1⟩

/-! ## Theorems: ArithmeticCast, floating-point sources -/

/-- A call with a floating-point source and a boolean destination resolves to the
overload "Cast to bool from floating-point". -/
theorem ofFloating_bool (From : NumType) (hFrom : is_floating_point From = true)
    (x : FloatValue) :
    ArithmeticCast.ofFloating bool_t From x
      = some (ArithmeticCast.boolFromFloating From x) := by
  simp [ArithmeticCast.ofFloating, ArithmeticCast.floatingOverloads, IsBool, bool_t, hFrom]

/-- A call with a floating-point source and an integer destination resolves to the
overload for unsigned or for signed destinations. -/
theorem ofFloating_integer (To From : NumType) (hTo : IsIntType To)
    (hFrom : is_floating_point From = true) (x : FloatValue) :
    ArithmeticCast.ofFloating To From x
      = some (if is_unsigned To then ArithmeticCast.unsignedFromFloating To From x
          else ArithmeticCast.signedFromFloating To From x) := by
  obtain ⟨k, b⟩ := To
  obtain ⟨hk, -⟩ := hTo
  simp only at hk
  have hs : is_floating_point ⟨.signedInt, b⟩ = false := rfl
  have hu : is_floating_point ⟨.unsignedInt, b⟩ = false := rfl
  rcases hk with rfl | rfl <;>
    simp [ArithmeticCast.ofFloating, ArithmeticCast.floatingOverloads, IsBool, is_unsigned,
      is_arithmetic, hFrom, hs, hu]

/-- C34: the overload "Cast to signed integer from floating-point" does not saturate at
the value to which the maximum of `To` is rounded.  The maximum of `int64_t` becomes the
`double` `2 ^ 63`, which is a `double` above that maximum; for `x = 2 ^ 63` neither
`from > max` nor `from < min` holds and `return from;` converts a value that `int64_t`
cannot hold.  The same happens for `int32_t` from `float` at `2 ^ 31`.  Above the rounded
maximum, below the minimum and at the infinities the result is the limit, and for
`int32_t` from `double`, where the maximum is exact, `2 ^ 31` gives the maximum. -/
theorem ArithmeticCast_signed_of_floating_at_rounded_max :
    static_cast_to_floating double_t (numeric_limits_max int64_t)
      = .finite 9223372036854775808 ∧
    static_cast_to_floating double_t 9223372036854775808 = .finite 9223372036854775808 ∧
    numeric_limits_max int64_t < 9223372036854775808 ∧
    ArithmeticCast.ofFloating int64_t double_t (.finite 9223372036854775808)
      = some (.error .not_representable) ∧
    static_cast_to_floating float_t (numeric_limits_max int32_t) = .finite 2147483648 ∧
    numeric_limits_max int32_t < 2147483648 ∧
    ArithmeticCast.ofFloating int32_t float_t (.finite 2147483648)
      = some (.error .not_representable) ∧
    ArithmeticCast.ofFloating int64_t double_t (.finite 9223372036854777856)
      = some (.ok (numeric_limits_max int64_t)) ∧
    ArithmeticCast.ofFloating int64_t double_t (.infinity false)
      = some (.ok (numeric_limits_max int64_t)) ∧
    ArithmeticCast.ofFloating int64_t double_t (.finite (-9223372036854777856))
      = some (.ok (numeric_limits_min int64_t)) ∧
    ArithmeticCast.ofFloating int64_t double_t (.infinity true)
      = some (.ok (numeric_limits_min int64_t)) ∧
    ArithmeticCast.ofFloating int32_t double_t (.finite 2147483648)
      = some (.ok (numeric_limits_max int32_t)) := by
  refine ⟨by decide, by decide, by decide, by decide, by decide, by decide, by decide,
    by decide, by decide, by decide, by decide, by decide⟩

/-- C35: a NaN of a floating-point type converts to 0 for every unsigned and every signed
integer destination of 8 to 64 bits, and to false (0) for the boolean destination. -/
theorem ArithmeticCast_of_NaN (To From : NumType) (hFrom : is_floating_point From = true) :
    (IsIntType To → ArithmeticCast.ofFloating To From .nan = some (.ok 0)) ∧
    ArithmeticCast.ofFloating bool_t From .nan = some (.ok 0) := by
  constructor
  · intro hTo
    rw [ofFloating_integer To From hTo hFrom]
    by_cases hu : is_unsigned To = true
    · simp [hu, ArithmeticCast.unsignedFromFloating, static_cast_to_floating, FloatValue.lt,
        FloatValue.eq]
    · simp [hu, ArithmeticCast.signedFromFloating, static_cast_to_floating, FloatValue.lt,
        FloatValue.gt, FloatValue.eq]
  · rw [ofFloating_bool From hFrom]
    simp [ArithmeticCast.boolFromFloating, FloatValue.lt, FloatValue.gt, FloatValue.neg]

/-- An instance of `ArithmeticCast_of_NaN` with the types of the test: `double` to
`int32_t`, to `uint32_t` and to `bool`. -/
theorem ArithmeticCast_of_NaN_witness :
    is_floating_point double_t = true ∧ IsIntType int32_t ∧ IsIntType uint32_t ∧
    ArithmeticCast.ofFloating int32_t double_t .nan = some (.ok 0) ∧
    ArithmeticCast.ofFloating uint32_t double_t .nan = some (.ok 0) ∧
    ArithmeticCast.ofFloating bool_t double_t .nan = some (.ok 0) :=
  ⟨rfl, by decide, by decide,
    (ArithmeticCast_of_NaN int32_t double_t rfl).1 (by decide),
    (ArithmeticCast_of_NaN uint32_t double_t rfl).1 (by decide),
    (ArithmeticCast_of_NaN bool_t double_t rfl).2⟩

/-- C36 (amended): for a `double` `x` that is not a NaN, `ArithmeticCast<bool>(x)` is false
(0) when `|x| <= epsilon` and true (1) otherwise, the infinities included, where `epsilon`
is the `double` nearest to the square root of twice the machine epsilon (it lies within
half a unit in the last place, `2 ^ -79`, of the root); a NaN gives false. -/
theorem ArithmeticCast_bool_of_double :
    (∀ v : ℚ, ArithmeticCast.ofFloating bool_t double_t (.finite v)
      = some (.ok (if |v| ≤ ArithmeticCast.epsilon double_t then 0 else 1))) ∧
    (∀ negative : Bool,
      ArithmeticCast.ofFloating bool_t double_t (.infinity negative) = some (.ok 1)) ∧
    ArithmeticCast.ofFloating bool_t double_t .nan = some (.ok 0) ∧
    (ArithmeticCast.epsilon double_t - mkRat 1 (2 ^ 79)) ^ 2
      < 2 * numeric_limits_epsilon double_t ∧
    2 * numeric_limits_epsilon double_t
      < (ArithmeticCast.epsilon double_t + mkRat 1 (2 ^ 79)) ^ 2 := by
  refine ⟨?_, ?_, ?_, ?_, ?_⟩
  · intro v
    rw [ofFloating_bool double_t rfl]
    simp only [ArithmeticCast.boolFromFloating, FloatValue.gt, FloatValue.lt, FloatValue.neg,
      abs_le]
    by_cases h1 : ArithmeticCast.epsilon double_t < v
    · have h2 : ¬ (-ArithmeticCast.epsilon double_t ≤ v ∧ v ≤ ArithmeticCast.epsilon double_t) :=
        fun h => absurd h.2 (not_le.2 h1)
      simp [h1, h2]
    · by_cases h3 : v < -ArithmeticCast.epsilon double_t
      · have h2 : ¬ (-ArithmeticCast.epsilon double_t ≤ v ∧
            v ≤ ArithmeticCast.epsilon double_t) := fun h => absurd h.1 (not_le.2 h3)
        simp [h1, h3, h2]
      · have h2 : -ArithmeticCast.epsilon double_t ≤ v ∧ v ≤ ArithmeticCast.epsilon double_t :=
          ⟨not_lt.1 h3, not_lt.1 h1⟩
        simp [h1, h3, h2]
  · intro negative
    rw [ofFloating_bool double_t rfl]
    cases negative <;> rfl
  · rfl
  · simp only [ArithmeticCast.epsilon, numeric_limits_epsilon, numeric_limits_digits, double_t]
    norm_num [Rat.mkRat_eq_div]
  · simp only [ArithmeticCast.epsilon, numeric_limits_epsilon, numeric_limits_digits, double_t]
    norm_num [Rat.mkRat_eq_div]

/-- An instance of `ArithmeticCast_bool_of_double` with the values of the test: 0, the
machine epsilon and its negation, the smallest normal and the smallest subnormal value
are false; 0.01 and its negation, the largest and the lowest finite value and both
infinities are true. -/
theorem ArithmeticCast_bool_of_double_witness :
    ArithmeticCast.ofFloating bool_t double_t (.finite double_hundredth)
      = some (.ok (if |double_hundredth| ≤ ArithmeticCast.epsilon double_t then 0 else 1)) ∧
    (∀ v ∈ [0, numeric_limits_epsilon double_t, -numeric_limits_epsilon double_t, double_min,
        double_denorm_min],
      ArithmeticCast.ofFloating bool_t double_t (.finite v) = some (.ok 0)) ∧
    (∀ v ∈ [double_hundredth, -double_hundredth, double_max, -double_max],
      ArithmeticCast.ofFloating bool_t double_t (.finite v) = some (.ok 1)) ∧
    ArithmeticCast.ofFloating bool_t double_t (.infinity false) = some (.ok 1) ∧
    ArithmeticCast.ofFloating bool_t double_t (.infinity true) = some (.ok 1) :=
  ⟨ArithmeticCast_bool_of_double.1 double_hundredth, by decide, by decide,
    ArithmeticCast_bool_of_double.2.1 false, ArithmeticCast_bool_of_double.2.1 true⟩

/-- C36 as stated fails for a NaN, which is neither below nor equal to `epsilon` and yet
gives false, and, if `epsilon` is read as the exact square root, for the constant itself:
the `double` that the code compares with lies above the root, and it gives false. -/
theorem ArithmeticCast_bool_of_double_exceptions :
    (FloatValue.nan.lt (.finite (ArithmeticCast.epsilon double_t))
      || FloatValue.nan.eq (.finite (ArithmeticCast.epsilon double_t))) = false ∧
    ArithmeticCast.ofFloating bool_t double_t .nan = some (.ok 0) ∧
    2 * numeric_limits_epsilon double_t < ArithmeticCast.epsilon double_t ^ 2 ∧
    ArithmeticCast.ofFloating bool_t double_t (.finite (ArithmeticCast.epsilon double_t))
      = some (.ok 0) := by
  refine ⟨rfl, rfl, ?_, by decide⟩
  simp only [ArithmeticCast.epsilon, numeric_limits_epsilon, numeric_limits_digits, double_t]
  norm_num [Rat.mkRat_eq_div]

/-! ## Theorems: Condition, the Conditions that the class can produce -/

end EndlessSky
